import Mathlib

set_option maxHeartbeats 1000000

/-! Shallow embedding of the hierarchical-path manager (src/main.py).

The Python store keeps its state in a nested dictionary; we model the
Python values that occur there (None, bool, str, dict) with the inductive
type Py, dictionaries as insertion-ordered key/value sequences (Ents, the
mutually inductive entry list of a dict), and every method of PathManager
as a function over these values.  Raised exceptions are modelled with
Except Err.  The filesystem oracle (os.path.exists and os.path.isfile)
and the JSON byte codec are the two external collaborators of the system
and appear as function parameters. -/

mutual
inductive Py : Type where
  | pnone : Py
  | pbool : Bool → Py
  | pstr  : String → Py
  | pdict : Ents → Py

inductive Ents : Type where
  | nil : Ents
  | cons : String → Py → Ents → Ents
end

mutual
/-- Decidable structural equality on Python values. -/
def pyDecEq : (a b : Py) → Decidable (a = b)
  | .pnone, .pnone => .isTrue rfl
  | .pnone, .pbool _ => .isFalse (fun h => Py.noConfusion h)
  | .pnone, .pstr _ => .isFalse (fun h => Py.noConfusion h)
  | .pnone, .pdict _ => .isFalse (fun h => Py.noConfusion h)
  | .pbool _, .pnone => .isFalse (fun h => Py.noConfusion h)
  | .pbool a, .pbool b =>
    match Bool.decEq a b with
    | .isTrue h => .isTrue (by rw [h])
    | .isFalse h => .isFalse (fun hh => h (by injection hh))
  | .pbool _, .pstr _ => .isFalse (fun h => Py.noConfusion h)
  | .pbool _, .pdict _ => .isFalse (fun h => Py.noConfusion h)
  | .pstr _, .pnone => .isFalse (fun h => Py.noConfusion h)
  | .pstr _, .pbool _ => .isFalse (fun h => Py.noConfusion h)
  | .pstr a, .pstr b =>
    match String.decEq a b with
    | .isTrue h => .isTrue (by rw [h])
    | .isFalse h => .isFalse (fun hh => h (by injection hh))
  | .pstr _, .pdict _ => .isFalse (fun h => Py.noConfusion h)
  | .pdict _, .pnone => .isFalse (fun h => Py.noConfusion h)
  | .pdict _, .pbool _ => .isFalse (fun h => Py.noConfusion h)
  | .pdict _, .pstr _ => .isFalse (fun h => Py.noConfusion h)
  | .pdict a, .pdict b =>
    match entsDecEq a b with
    | .isTrue h => .isTrue (by rw [h])
    | .isFalse h => .isFalse (fun hh => h (by injection hh))

/-- Decidable structural equality on dictionary entry sequences. -/
def entsDecEq : (a b : Ents) → Decidable (a = b)
  | .nil, .nil => .isTrue rfl
  | .nil, .cons _ _ _ => .isFalse (fun h => Ents.noConfusion h)
  | .cons _ _ _, .nil => .isFalse (fun h => Ents.noConfusion h)
  | .cons k1 v1 r1, .cons k2 v2 r2 =>
    match String.decEq k1 k2, pyDecEq v1 v2, entsDecEq r1 r2 with
    | .isTrue h1, .isTrue h2, .isTrue h3 => .isTrue (by rw [h1, h2, h3])
    | .isFalse h1, _, _ => .isFalse (fun hh => h1 (by injection hh))
    | _, .isFalse h2, _ => .isFalse (fun hh => h2 (by injection hh))
    | _, _, .isFalse h3 => .isFalse (fun hh => h3 (by injection hh))
end

instance : DecidableEq Py := pyDecEq

instance : DecidableEq Ents := entsDecEq

instance {ε α : Type} [DecidableEq ε] [DecidableEq α] :
    DecidableEq (Except ε α) := fun x y =>
  match x, y with
  | .error a, .error b =>
    if h : a = b then .isTrue (by rw [h]) else .isFalse (by simp [h])
  | .ok a, .ok b =>
    if h : a = b then .isTrue (by rw [h]) else .isFalse (by simp [h])
  | .error _, .ok _ => .isFalse (fun h => Except.noConfusion h)
  | .ok _, .error _ => .isFalse (fun h => Except.noConfusion h)

/-- Dictionary read d[key]: first entry with the given key, if any. -/
def lookupKey : Ents → String → Option Py
  | .nil, _ => none
  | .cons k v rest, key => if k = key then some v else lookupKey rest key

/-- Python `key in d`. -/
def hasKey (es : Ents) (key : String) : Bool :=
  (lookupKey es key).isSome

/-- Python dict assignment d[key] = v: replaces the value in place when the
key is present (keeping its position), otherwise appends a new entry. -/
def setKey : Ents → String → Py → Ents
  | .nil, key, v => .cons key v .nil
  | .cons k w rest, key, v =>
    if k = key then .cons k v rest else .cons k w (setKey rest key v)

/-- Appends a fresh entry at the end (Python assignment of a new key). -/
def pushKey : Ents → String → Py → Ents
  | .nil, key, v => .cons key v .nil
  | .cons k w rest, key, v => .cons k w (pushKey rest key v)

/-- The keys of a dictionary, in order. -/
def keysOf : Ents → List String
  | .nil => []
  | .cons k _ rest => k :: keysOf rest

/-- The exceptions the Python code can raise in the modelled fragment. -/
inductive Err : Type where
  | fileNotFoundError : String → Err
  | typeError : String → Err
  | valueError : Err
  | keyError : String → Err
deriving DecidableEq, Repr

/-- String lookup in the module-level `msg` template table. -/
def lookupStr : List (String × String) → String → Option String
  | [], _ => none
  | (k, v) :: rest, key => if k = key then some v else lookupStr rest key

/-- The module-level message-template table of src/main.py.  Note its two
keys are "TypeError" and "FileNotFoundError" (exact spelling matters:
set_data below looks up "type_error", which is absent). -/
def msg : List (String × String) :=
  [("TypeError",
    "The provided object must be a :class:`\x7b\x7d`, the provided object was: :class:`\x7b\x7d`"),
   ("FileNotFoundError", "Path \"\x7b\x7d\" was not found.")]

/-- Replaces every brace-pair placeholder in the template by arg (the
templates used with one argument contain exactly one placeholder, so this
is Python template.format(arg) for them). -/
def formatChars (arg : List Char) : List Char → List Char
  | [] => []
  | [c] => [c]
  | c1 :: c2 :: rest =>
    if c1 = '\x7b' ∧ c2 = '\x7d' then arg ++ formatChars arg rest
    else c1 :: formatChars arg (c2 :: rest)

/-- Python template.format(arg) for a template with one placeholder. -/
def formatOne (template arg : String) : String :=
  .mk (formatChars arg.data template.data)

/-- Python path.split("/") at the character level: split on every '/'. -/
def splitSlashAux : List Char → List Char × List (List Char)
  | [] => ([], [])
  | c :: rest =>
    if c = '/' then ([], (splitSlashAux rest).1 :: (splitSlashAux rest).2)
    else (c :: (splitSlashAux rest).1, (splitSlashAux rest).2)

/-- Python path.split("/"): always returns a non-empty list of segments
(the empty string splits to [""], like in Python). -/
def pySplit (s : String) : List String :=
  let r := splitSlashAux s.data
  (r.1 :: r.2).map String.mk

/-- Python "/".join(parts). -/
def joinSlash : List String → String
  | [] => ""
  | [x] => x
  | x :: xs => x ++ "/" ++ joinSlash xs

/-- Python s.removesuffix(suf): drops suf once when s ends with it. -/
def removesuffix (s suf : String) : String :=
  if suf.data.isSuffixOf s.data then
    .mk (s.data.take (s.data.length - suf.data.length))
  else s

/-- The default property record self.path_properties of PathManager. -/
def path_properties : Py :=
  .pdict (.cons "file" (.pbool false) (.cons "stored" (.pbool false)
    (.cons "stored_in" .pnone .nil)))

/-- The inner update_properties of PathManager._add.  The Python guards
`x if x is not None else old` keep the old value only for stored_in (its
argument can be None); the two booleans are always overwritten because
False is not None.  Reading the old stored_in fails with KeyError when
the key is absent, as in Python. -/
def update_properties (properties : Py) (file stored_ : Bool)
    (stored_in : Option String) : Except Err Py :=
  match properties with
  | .pdict es =>
    let es := setKey es "file" (.pbool file)
    let es := setKey es "stored" (.pbool stored_)
    match stored_in with
    | some t => .ok (.pdict (setKey es "stored_in" (.pstr t)))
    | none =>
      match lookupKey es "stored_in" with
      | some v => .ok (.pdict (setKey es "stored_in" v))
      | none => .error (.keyError "stored_in")
  | _ => .error (.typeError "object does not support item assignment")

/-- The walking loop of PathManager._add.  full is "/".join(parts) of the
whole call (is_file is recomputed from the full path on every segment,
exactly as in the source), and lastPart is parts[-1], compared to each
part by string equality. -/
def addParts (isf : String → Bool) (time full lastPart : String) :
    Py → List String → Except Err Py
  | obj, [] => .ok obj
  | obj, part :: rest =>
    match obj with
    | .pdict entries =>
      let is_file := isf full
      let is_stored := part == lastPart
      match lookupKey entries part with
      | none => do
        let props ← update_properties path_properties is_file is_stored
          (if is_stored then some time else none)
        let child ← addParts isf time full lastPart (.pdict (.cons "//" props .nil)) rest
        .ok (.pdict (pushKey entries part child))
      | some childv => do
        let childv ←
          if is_stored then
            match childv with
            | .pdict ces =>
              match lookupKey ces "//" with
              | some pr => do
                let pr ← update_properties pr false true (some time)
                pure (Py.pdict (setKey ces "//" pr))
              | none => Except.error (.keyError "//")
            | _ => Except.error (Err.typeError "object is not subscriptable")
          else
            pure childv
        let child ← addParts isf time full lastPart childv rest
        .ok (.pdict (setKey entries part child))
    | _ => .error (.typeError "argument of type is not iterable")

/-- PathManager._add: checks os.path.exists on "/".join(parts) (a single
argument to os.path.join is returned unchanged), then walks the parts. -/
def _add (ex isf : String → Bool) (time : String) (data : Py)
    (parts : List String) : Except Err Py :=
  let full := joinSlash parts
  if !(ex full) then
    match lookupStr msg "FileNotFoundError" with
    | some t => .error (.fileNotFoundError (formatOne t full))
    | none => .error (.keyError "FileNotFoundError")
  else
    addParts isf time full (parts.getLastD "") data parts

/-- PathManager.add_path: the empty string is falsy, so it returns with no
effect; otherwise the path is split on "/" and added. -/
def add_path (ex isf : String → Bool) (time : String) (data : Py)
    (path : String) : Except Err Py :=
  if path = "" then .ok data
  else _add ex isf time data (pySplit path)

/-- Python truthiness for the values that can appear under "stored". -/
def pyTruthy : Py → Bool
  | .pnone => false
  | .pbool b => b
  | .pstr s => s != ""
  | .pdict es => !(es == .nil)

mutual
/-- PathManager._get_all: collects (in iteration order) current_path for
every visited properties record whose "stored" is truthy. -/
def _get_all : Py → String → Except Err (List String)
  | .pdict entries, current_path => getAllEntries entries current_path
  | _, _ => .error (.typeError "object has no attribute copy")

/-- The loop of _get_all over the ordered entries of one dictionary. -/
def getAllEntries : Ents → String → Except Err (List String)
  | .nil, _ => .ok []
  | .cons part apex rest, current_path =>
    if part = "//" then
      match apex with
      | .pdict pes =>
        match lookupKey pes "stored" with
        | some v => do
          let tail ← getAllEntries rest current_path
          .ok (if pyTruthy v then current_path :: tail else tail)
        | none => .error (.keyError "stored")
      | _ => .error (.typeError "object is not subscriptable")
    else do
      let new_path := if current_path ≠ "" then current_path ++ "/" ++ part
                      else removesuffix part "\\"
      let sub ← _get_all apex new_path
      let tail ← getAllEntries rest current_path
      .ok (sub ++ tail)
end

/-- PathManager.get_all. -/
def get_all (data : Py) : Except Err (List String) := _get_all data ""

/-- The walk of PathManager.get_properties: obj = obj[part] over the split
path, then obj["//"].  A missing key raises KeyError. -/
def getPropertiesWalk : Py → List String → Except Err Py
  | obj, [] =>
    match obj with
    | .pdict es =>
      match lookupKey es "//" with
      | some pr => .ok pr
      | none => .error (.keyError "//")
    | _ => .error (.typeError "object is not subscriptable")
  | obj, part :: rest =>
    match obj with
    | .pdict es =>
      match lookupKey es part with
      | some nxt => getPropertiesWalk nxt rest
      | none => .error (.keyError part)
    | _ => .error (.typeError "object is not subscriptable")

/-- PathManager.get_properties. -/
def get_properties (data : Py) (path : String) : Except Err Py :=
  getPropertiesWalk data (pySplit path)

/-- PathManager.in_the_data: membership of path in get_all(). -/
def in_the_data (data : Py) (path : String) : Except Err Bool := do
  let l ← get_all data
  .ok (l.contains path)

/-- PathManager.set_data: stores the value when it is a dict; otherwise
Python evaluates msg["type_error"] to build the TypeError message, and
since the table key is spelled "TypeError" this lookup itself raises
KeyError("type_error") before any TypeError can be raised. -/
def set_data (data : Py) : Except Err Py :=
  match data with
  | .pdict es => .ok (.pdict es)
  | _ =>
    match lookupStr msg "type_error" with
    | some t => .error (.typeError t)
    | none => .error (.keyError "type_error")

/-- Python list.remove: drops the first occurrence, ValueError if absent. -/
def listRemove (l : List String) (x : String) : Except Err (List String) :=
  if x ∈ l then .ok (l.erase x) else .error .valueError

/-- The inner __add of PathManager.remove_path: re-adds one surviving path
into the restructured data.  properties is re-read from the old data on
every iteration of the loop (the loop variable shadows the removed path);
a newly created terminal gets that record, other new nodes get the shared
self.path_properties, and existing nodes are never updated. -/
def removeAddGo (olddata : Py) (path lastPart : String) :
    Py → List String → Except Err Py
  | obj, [] => .ok obj
  | obj, part :: rest => do
    let properties ← get_properties olddata path
    match obj with
    | .pdict entries =>
      match lookupKey entries part with
      | none =>
        let props := if part == lastPart then properties else path_properties
        let child ← removeAddGo olddata path lastPart (.pdict (.cons "//" props .nil)) rest
        .ok (.pdict (pushKey entries part child))
      | some childv => do
        let child ← removeAddGo olddata path lastPart childv rest
        .ok (.pdict (setKey entries part child))
    | _ => .error (.typeError "argument of type is not iterable")

/-- PathManager.remove_path: empty paths are a silent no-op; a path the
filesystem oracle reports missing raises FileNotFoundError; otherwise the
path is removed from the stored-path list (ValueError when absent) and
the whole tree is rebuilt from the surviving paths. -/
def remove_path (ex : String → Bool) (data : Py) (path : String) :
    Except Err Py :=
  if path = "" then .ok data
  else if !(ex path) then
    match lookupStr msg "FileNotFoundError" with
    | some t => .error (.fileNotFoundError (formatOne t path))
    | none => .error (.keyError "FileNotFoundError")
  else do
    let paths ← get_all data
    let paths ← listRemove paths path
    let restructured ← paths.foldlM
      (fun acc q => removeAddGo data q ((pySplit q).getLastD "") acc (pySplit q))
      (Py.pdict .nil)
    set_data restructured

/-- PathManager.load: the external JSON codec parses the byte stream and
the result is handed to set_data. -/
def load (parse : String → Except Err Py) (content : String) : Except Err Py := do
  let new_data ← parse content
  set_data new_data

/-- PathManager.save: the external JSON codec serialises self.data. -/
def save (dump : Py → String) (data : Py) : String := dump data

/-! Analysis layer.  The code builds trees of a fixed shape: every non-root
node is a dict whose first entry is the "//" properties record, the other
entries are children keyed by path segments.  Segment keys coming from
split("/") contain no '/'; the predicates below additionally rule out the
two degenerate segment forms ("" and a trailing backslash) that _get_all
treats specially when it rebuilds path strings. -/

/-- A clean segment key: non-empty, no '/', no trailing backslash. -/
def goodKey (k : String) : Bool :=
  !(k == "") && !(decide ('/' ∈ k.data)) && !(("\\" : String).data.isSuffixOf k.data)

/-- A properties record readable by _get_all: a dict with a "stored" key. -/
def wfProps : Py → Bool
  | .pdict es => hasKey es "stored"
  | _ => false

mutual
/-- Shape of every non-root node the code builds: a dict headed by its
"//" properties record, followed by well-formed children. -/
def wfNode : Py → Bool
  | .pdict (.cons k pr rest) => k == "//" && wfProps pr && wfEntries rest
  | _ => false

/-- Child entries of a node (or all entries of the root): distinct clean
keys mapping to well-formed nodes. -/
def wfEntries : Ents → Bool
  | .nil => true
  | .cons k v rest => goodKey k && wfNode v && !(hasKey rest k) && wfEntries rest
end

/-- The root dictionary: children only, no "//" record of its own. -/
def wfData : Py → Bool
  | .pdict es => wfEntries es
  | _ => false

/-- Does the node's properties record mark it stored (with Python
truthiness, as _get_all tests it)? -/
def storedTruthy : Py → Bool
  | .pdict es =>
    match lookupKey es "stored" with
    | some v => pyTruthy v
    | none => false
  | _ => false

mutual
/-- The chains (key sequences from this node) of all stored nodes, in the
same depth-first, properties-first order in which _get_all walks. -/
def listingNode : Py → List (List String)
  | .pdict es => listingEntries es
  | _ => []

/-- Chain listing over the ordered entries of one dictionary. -/
def listingEntries : Ents → List (List String)
  | .nil => []
  | .cons part apex rest =>
    if part = "//" then
      (if storedTruthy apex then [([] : List String)] else []) ++ listingEntries rest
    else
      (listingNode apex).map (fun c => part :: c) ++ listingEntries rest
end

mutual
/-- The chains of all nodes present in the tree (stored or structural). -/
def chainsNode : Py → List (List String)
  | .pdict es => chainsEntries es
  | _ => []

/-- Node chains over the ordered entries of one dictionary. -/
def chainsEntries : Ents → List (List String)
  | .nil => []
  | .cons part apex rest =>
    if part = "//" then chainsEntries rest
    else ([part] :: (chainsNode apex).map (fun c => part :: c)) ++ chainsEntries rest
end

/-- One step of the path reconstruction _get_all performs: exactly the
new_path expression of the source. -/
def step (current part : String) : String :=
  if current ≠ "" then current ++ "/" ++ part else removesuffix part "\\"

/-- The path _get_all reports for the node reached from current by a chain. -/
def emit : String → List String → String
  | current, [] => current
  | current, part :: rest => emit (step current part) rest

/-- Character-level "/".join. -/
def charJoin : List (List Char) → List Char
  | [] => []
  | [x] => x
  | x :: xs => x ++ '/' :: charJoin xs

/-- Tail of a reconstructed path after a node's own path: empty or starting
with the separator. -/
def slashTail (t : List Char) : Prop := t = [] ∨ ∃ u, t = '/' :: u

/-- Call-boundary model of PathManager.get_all: the value returned to the
caller together with the state of self.data after the call.  The method
body only reads the tree (via a shallow copy), so the post-state is the
pre-state. -/
def get_all_call (s : Py) : Except Err (List String) × Py := (get_all s, s)

/-- Call-boundary model of PathManager.in_the_data (result, post-state). -/
def in_the_data_call (s : Py) (path : String) : Except Err Bool × Py :=
  (in_the_data s path, s)

/-- Call-boundary model of PathManager.get_properties (result,
post-state); the walk only reads, also when it raises KeyError. -/
def get_properties_call (s : Py) (path : String) : Except Err Py × Py :=
  (get_properties s path, s)

/-- The tree the code builds after registering "x/y" then "x/z" into an
empty store (oracle: everything exists, nothing is a file). -/
def exampleTreeXZ : Py :=
  .pdict (.cons "x" (.pdict (.cons "//"
    (.pdict (.cons "file" (.pbool false) (.cons "stored" (.pbool false)
      (.cons "stored_in" .pnone .nil))))
    (.cons "y" (.pdict (.cons "//"
      (.pdict (.cons "file" (.pbool false) (.cons "stored" (.pbool true)
        (.cons "stored_in" (.pstr "T1") .nil)))) .nil))
    (.cons "z" (.pdict (.cons "//"
      (.pdict (.cons "file" (.pbool false) (.cons "stored" (.pbool true)
        (.cons "stored_in" (.pstr "T2") .nil)))) .nil)) .nil)))) .nil)


/-! Basic facts about strings, clean keys and path reconstruction. -/

theorem strExt {s t : String} (h : s.data = t.data) : s = t := by
  cases s; cases t; cases h; rfl

theorem data_append (s t : String) : (s ++ t).data = s.data ++ t.data := by
  cases s; cases t; rfl

theorem sapp_assoc (a b c : String) : a ++ b ++ c = a ++ (b ++ c) := by
  apply strExt; simp [data_append]

theorem goodKey_ne_empty {k : String} (h : goodKey k = true) : k ≠ "" := by
  simp only [goodKey, Bool.and_eq_true, Bool.not_eq_true', beq_eq_false_iff_ne] at h
  exact h.1.1

theorem goodKey_no_slash {k : String} (h : goodKey k = true) : '/' ∉ k.data := by
  simp only [goodKey, Bool.and_eq_true, Bool.not_eq_true', decide_eq_false_iff_not] at h
  exact h.1.2

theorem goodKey_removesuffix {k : String} (h : goodKey k = true) :
    removesuffix k "\\" = k := by
  simp only [goodKey, Bool.and_eq_true, Bool.not_eq_true'] at h
  unfold removesuffix
  rw [h.2]
  simp

theorem data_ne_empty {s : String} (h : s ≠ "") : s.data ≠ [] := by
  intro hd
  exact h (strExt (by simp [hd]))

theorem step_of_ne {cur : String} (part : String) (h : cur ≠ "") :
    step cur part = cur ++ "/" ++ part := by
  unfold step; rw [if_pos h]

theorem step_of_empty {part : String} (h : goodKey part = true) :
    step "" part = part := by
  unfold step
  rw [if_neg (by simp)]
  exact goodKey_removesuffix h

theorem append_slash_data (cur part : String) :
    (cur ++ "/" ++ part).data = cur.data ++ '/' :: part.data := by
  simp [data_append]

theorem append_slash_ne_empty (cur part : String) : cur ++ "/" ++ part ≠ "" := by
  intro h
  have := congrArg String.data h
  rw [append_slash_data] at this
  simp at this

theorem step_ne_empty {cur part : String}
    (h : cur ≠ "" ∨ goodKey part = true) : step cur part ≠ "" := by
  rcases h with h | h
  · rw [step_of_ne part h]; exact append_slash_ne_empty cur part
  · by_cases hc : cur = ""
    · subst hc; rw [step_of_empty h]; exact goodKey_ne_empty h
    · rw [step_of_ne part hc]; exact append_slash_ne_empty cur part

theorem emit_shape : ∀ (chain : List String) (cur : String), cur ≠ "" →
    ∃ t, (emit cur chain).data = cur.data ++ t ∧ slashTail t
  | [], cur, _ => ⟨[], by simp [emit], Or.inl rfl⟩
  | k :: ks, cur, h => by
    have hne : cur ++ "/" ++ k ≠ "" := append_slash_ne_empty cur k
    obtain ⟨t, ht, hs⟩ := emit_shape ks (cur ++ "/" ++ k) hne
    refine ⟨'/' :: (k.data ++ t), ?_, Or.inr ⟨k.data ++ t, rfl⟩⟩
    show (emit (step cur k) ks).data = _
    rw [step_of_ne k h, ht, append_slash_data]
    simp

theorem emit_cons_shape {cur : String} (k : String) (ks : List String)
    (h : cur ≠ "") :
    ∃ t, (emit cur (k :: ks)).data = cur.data ++ '/' :: (k.data ++ t) ∧
      slashTail t := by
  have hne : cur ++ "/" ++ k ≠ "" := append_slash_ne_empty cur k
  obtain ⟨t, ht, hs⟩ := emit_shape ks (cur ++ "/" ++ k) hne
  refine ⟨t, ?_, hs⟩
  show (emit (step cur k) ks).data = _
  rw [step_of_ne k h, ht, append_slash_data]
  simp

theorem segAppend_inj : ∀ (k1 : List Char) (k2 t1 t2 : List Char),
    '/' ∉ k1 → '/' ∉ k2 → slashTail t1 → slashTail t2 →
    k1 ++ t1 = k2 ++ t2 → k1 = k2 ∧ t1 = t2
  | [], [], t1, t2, _, _, _, _, h => ⟨rfl, by simpa using h⟩
  | [], c :: k2, t1, t2, _, h2, s1, _, h => by
    exfalso
    simp only [List.nil_append] at h
    have hc : c ≠ '/' := by
      intro hcc; subst hcc; exact h2 (List.mem_cons_self _ _)
    rcases s1 with rfl | ⟨u, rfl⟩
    · simp at h
    · simp only [List.cons_append, List.cons.injEq] at h
      exact hc h.1.symm
  | c :: k1, [], t1, t2, h1, _, _, s2, h => by
    exfalso
    simp only [List.nil_append] at h
    have hc : c ≠ '/' := by
      intro hcc; subst hcc; exact h1 (List.mem_cons_self _ _)
    rcases s2 with rfl | ⟨u, rfl⟩
    · simp at h
    · simp only [List.cons_append, List.cons.injEq] at h
      exact hc h.1
  | c1 :: k1, c2 :: k2, t1, t2, h1, h2, s1, s2, h => by
    injection h with hc hrest
    subst hc
    obtain ⟨hk, ht⟩ := segAppend_inj k1 k2 t1 t2
      (fun m => h1 (List.mem_cons_of_mem _ m))
      (fun m => h2 (List.mem_cons_of_mem _ m)) s1 s2 hrest
    exact ⟨by rw [hk], ht⟩

theorem emit_inj : ∀ (c1 c2 : List String) (cur : String), cur ≠ "" →
    (∀ k ∈ c1, goodKey k = true) → (∀ k ∈ c2, goodKey k = true) →
    emit cur c1 = emit cur c2 → c1 = c2
  | [], [], _, _, _, _, _ => rfl
  | [], k :: ks, cur, h, _, _, he => by
    exfalso
    obtain ⟨t, ht, _⟩ := emit_cons_shape k ks h
    have : cur.data = cur.data ++ '/' :: (k.data ++ t) := by
      conv_lhs => rw [show cur = emit cur [] from rfl]
      rw [he, ht]
    have := congrArg List.length this
    simp at this
  | k :: ks, [], cur, h, _, _, he => by
    exfalso
    obtain ⟨t, ht, _⟩ := emit_cons_shape k ks h
    have : cur.data = cur.data ++ '/' :: (k.data ++ t) := by
      conv_lhs => rw [show cur = emit cur [] from rfl]
      rw [← he, ht]
    have := congrArg List.length this
    simp at this
  | k1 :: ks1, k2 :: ks2, cur, h, g1, g2, he => by
    obtain ⟨t1, ht1, hs1⟩ := emit_cons_shape k1 ks1 h
    obtain ⟨t2, ht2, hs2⟩ := emit_cons_shape k2 ks2 h
    have hdata : cur.data ++ '/' :: (k1.data ++ t1) =
        cur.data ++ '/' :: (k2.data ++ t2) := by rw [← ht1, ← ht2, he]
    have heq : k1.data ++ t1 = k2.data ++ t2 := by
      have := List.append_cancel_left hdata
      injection this
    obtain ⟨hk, _⟩ := segAppend_inj k1.data k2.data t1 t2
      (goodKey_no_slash (g1 k1 (List.mem_cons_self _ _)))
      (goodKey_no_slash (g2 k2 (List.mem_cons_self _ _))) hs1 hs2 heq
    have hkk : k1 = k2 := strExt hk
    subst hkk
    have hrest : emit (step cur k1) ks1 = emit (step cur k1) ks2 := he
    have : ks1 = ks2 := emit_inj ks1 ks2 (step cur k1)
      (step_ne_empty (Or.inl h))
      (fun k m => g1 k (List.mem_cons_of_mem _ m))
      (fun k m => g2 k (List.mem_cons_of_mem _ m)) hrest
    rw [this]

theorem emit_root_inj {c1 c2 : List String}
    (g1 : ∀ k ∈ c1, goodKey k = true) (g2 : ∀ k ∈ c2, goodKey k = true)
    (n1 : c1 ≠ []) (n2 : c2 ≠ [])
    (he : emit "" c1 = emit "" c2) : c1 = c2 := by
  match c1, c2 with
  | k1 :: ks1, k2 :: ks2 =>
    have hg1 : goodKey k1 = true := g1 k1 (List.mem_cons_self _ _)
    have hg2 : goodKey k2 = true := g2 k2 (List.mem_cons_self _ _)
    have he' : emit k1 ks1 = emit k2 ks2 := by
      have e1 : emit "" (k1 :: ks1) = emit k1 ks1 := by
        show emit (step "" k1) ks1 = _
        rw [step_of_empty hg1]
      have e2 : emit "" (k2 :: ks2) = emit k2 ks2 := by
        show emit (step "" k2) ks2 = _
        rw [step_of_empty hg2]
      rw [← e1, ← e2, he]
    obtain ⟨t1, ht1, hs1⟩ := emit_shape ks1 k1 (goodKey_ne_empty hg1)
    obtain ⟨t2, ht2, hs2⟩ := emit_shape ks2 k2 (goodKey_ne_empty hg2)
    have heq : k1.data ++ t1 = k2.data ++ t2 := by
      rw [← ht1, ← ht2, he']
    obtain ⟨hk, _⟩ := segAppend_inj k1.data k2.data t1 t2
      (goodKey_no_slash hg1) (goodKey_no_slash hg2) hs1 hs2 heq
    have hkk : k1 = k2 := strExt hk
    subst hkk
    have : ks1 = ks2 := emit_inj ks1 ks2 k1 (goodKey_ne_empty hg1)
      (fun k m => g1 k (List.mem_cons_of_mem _ m))
      (fun k m => g2 k (List.mem_cons_of_mem _ m)) he'
    rw [this]

theorem splitAux_noSlash : ∀ l : List Char, '/' ∉ l → splitSlashAux l = (l, [])
  | [], _ => rfl
  | c :: rest, h => by
    have hc : ¬(c = '/') := by
      intro e; subst e; exact h (List.mem_cons_self _ _)
    rw [splitSlashAux, if_neg hc, splitAux_noSlash rest (fun m => h (List.mem_cons_of_mem _ m))]

theorem splitAux_append : ∀ (h m : List Char), '/' ∉ h →
    splitSlashAux (h ++ '/' :: m) = (h, (splitSlashAux m).1 :: (splitSlashAux m).2)
  | [], m, _ => by
    show splitSlashAux ('/' :: m) = _
    rw [splitSlashAux, if_pos rfl]
  | c :: h, m, hh => by
    have hc : ¬(c = '/') := by
      intro e; subst e; exact hh (List.mem_cons_self _ _)
    have ih := splitAux_append h m (fun x => hh (List.mem_cons_of_mem _ x))
    rw [List.cons_append, splitSlashAux, if_neg hc, ih]

theorem charJoin_cons (c : Char) (h : List Char) (t : List (List Char)) :
    charJoin ((c :: h) :: t) = c :: charJoin (h :: t) := by
  cases t <;> rfl

theorem split_charJoin : ∀ l : List Char,
    charJoin ((splitSlashAux l).1 :: (splitSlashAux l).2) = l
  | [] => rfl
  | c :: rest => by
    by_cases hc : c = '/'
    · subst hc
      rw [splitSlashAux, if_pos rfl]
      show '/' :: charJoin _ = _
      rw [split_charJoin rest]
    · rw [splitSlashAux, if_neg hc]
      show charJoin ((c :: (splitSlashAux rest).1) :: (splitSlashAux rest).2) = _
      rw [charJoin_cons, split_charJoin rest]

theorem joinSlash_data : ∀ ls : List String,
    (joinSlash ls).data = charJoin (ls.map String.data)
  | [] => rfl
  | [x] => rfl
  | x :: y :: t => by
    show (x ++ "/" ++ joinSlash (y :: t)).data = _
    rw [append_slash_data, joinSlash_data (y :: t)]
    rfl

theorem joinSlash_pySplit (s : String) : joinSlash (pySplit s) = s := by
  apply strExt
  unfold pySplit
  rw [joinSlash_data, List.map_map]
  have : (String.data ∘ String.mk) = id := by
    funext l; rfl
  rw [this, List.map_id]
  exact split_charJoin s.data

theorem pySplit_ne_nil (s : String) : pySplit s ≠ [] := by
  unfold pySplit
  simp

theorem charJoin_noSlash_split : ∀ (x : List Char) (xs : List (List Char)),
    '/' ∉ x → (∀ y ∈ xs, '/' ∉ y) →
    splitSlashAux (charJoin (x :: xs)) = (x, xs)
  | x, [], hx, _ => splitAux_noSlash x hx
  | x, y :: t, hx, hy => by
    rw [show charJoin (x :: y :: t) = x ++ '/' :: charJoin (y :: t) from rfl]
    rw [splitAux_append _ _ hx]
    rw [charJoin_noSlash_split y t (hy y (List.mem_cons_self _ _))
      (fun z m => hy z (List.mem_cons_of_mem _ m))]

theorem pySplit_joinSlash : ∀ chain : List String, chain ≠ [] →
    (∀ k ∈ chain, '/' ∉ k.data) → pySplit (joinSlash chain) = chain := by
  intro chain hne hall
  match chain with
  | x :: xs =>
    unfold pySplit
    have hdata : (joinSlash (x :: xs)).data = charJoin (x.data :: xs.map String.data) := by
      rw [joinSlash_data]; rfl
    rw [hdata, charJoin_noSlash_split x.data (xs.map String.data)
      (hall x (List.mem_cons_self _ _))
      (by intro y m
          obtain ⟨k, hk, rfl⟩ := List.mem_map.mp m
          exact hall k (List.mem_cons_of_mem _ hk))]
    show String.mk x.data :: (xs.map String.data).map String.mk = x :: xs
    rw [List.map_map]
    have : (String.mk ∘ String.data) = id := by
      funext l; cases l; rfl
    rw [this, List.map_id]

theorem emit_of_ne : ∀ (chain : List String) (cur : String), cur ≠ "" →
    chain ≠ [] → emit cur chain = cur ++ "/" ++ joinSlash chain
  | [k], cur, h, _ => by
    show emit (step cur k) [] = _
    rw [step_of_ne k h]
    rfl
  | k :: k' :: t, cur, h, _ => by
    show emit (step cur k) (k' :: t) = _
    rw [step_of_ne k h,
      emit_of_ne (k' :: t) _ (append_slash_ne_empty cur k) (by simp)]
    apply strExt
    show (cur ++ "/" ++ k ++ "/" ++ joinSlash (k' :: t)).data =
      (cur ++ "/" ++ (k ++ "/" ++ joinSlash (k' :: t))).data
    simp [data_append, List.append_assoc]

theorem emit_root_eq_join : ∀ (k : String) (ks : List String),
    goodKey k = true → emit "" (k :: ks) = joinSlash (k :: ks) := by
  intro k ks hk
  match ks with
  | [] =>
    show emit (step "" k) [] = _
    rw [step_of_empty hk]
    rfl
  | k' :: t =>
    show emit (step "" k) (k' :: t) = _
    rw [step_of_empty hk,
      emit_of_ne (k' :: t) k (goodKey_ne_empty hk) (by simp)]
    rfl

/-! Facts about the dictionary operations. -/

theorem lookupKey_setKey_self : ∀ (es : Ents) (k : String) (v : Py),
    lookupKey (setKey es k v) k = some v
  | .nil, k, v => by simp [setKey, lookupKey]
  | .cons k' w rest, k, v => by
    by_cases h : k' = k
    · subst h; simp [setKey, lookupKey]
    · simp only [setKey, if_neg h, lookupKey]
      exact lookupKey_setKey_self rest k v

theorem lookupKey_setKey_other : ∀ (es : Ents) (k k' : String) (v : Py),
    k ≠ k' → lookupKey (setKey es k v) k' = lookupKey es k'
  | .nil, k, k', v, h => by simp [setKey, lookupKey, h]
  | .cons k2 w rest, k, k', v, h => by
    by_cases h2 : k2 = k
    · subst h2
      simp only [setKey, if_pos rfl, lookupKey]
      rw [if_neg h, if_neg h]
    · simp only [setKey, if_neg h2, lookupKey]
      by_cases h3 : k2 = k'
      · rw [if_pos h3, if_pos h3]
      · rw [if_neg h3, if_neg h3]
        exact lookupKey_setKey_other rest k k' v h

theorem hasKey_setKey_other {es : Ents} {k k' : String} {v : Py} (h : k ≠ k') :
    hasKey (setKey es k v) k' = hasKey es k' := by
  unfold hasKey
  rw [lookupKey_setKey_other es k k' v h]

theorem lookupKey_pushKey_self : ∀ (es : Ents) (k : String) (v : Py),
    hasKey es k = false → lookupKey (pushKey es k v) k = some v
  | .nil, k, v, _ => by simp [pushKey, lookupKey]
  | .cons k' w rest, k, v, h => by
    unfold hasKey at h
    simp only [lookupKey] at h
    by_cases h2 : k' = k
    · rw [if_pos h2] at h; simp at h
    · rw [if_neg h2] at h
      simp only [pushKey, lookupKey, if_neg h2]
      exact lookupKey_pushKey_self rest k v h

theorem hasKey_pushKey_other : ∀ (es : Ents) (k k' : String) (v : Py),
    k ≠ k' → hasKey (pushKey es k v) k' = hasKey es k'
  | .nil, k, k', v, h => by simp [pushKey, hasKey, lookupKey, h]
  | .cons k2 w rest, k, k', v, h => by
    simp only [pushKey, hasKey, lookupKey]
    by_cases h3 : k2 = k'
    · rw [if_pos h3, if_pos h3]
    · rw [if_neg h3, if_neg h3]
      exact hasKey_pushKey_other rest k k' v h

theorem wf_lookup_node : ∀ (es : Ents) (k : String) (v : Py),
    wfEntries es = true → lookupKey es k = some v → wfNode v = true
  | .nil, k, v, _, hl => by simp [lookupKey] at hl
  | .cons k2 w rest, k, v, hw, hl => by
    simp only [wfEntries, Bool.and_eq_true] at hw
    simp only [lookupKey] at hl
    by_cases h : k2 = k
    · rw [if_pos h] at hl
      cases hl
      exact hw.1.1.2
    · rw [if_neg h] at hl
      exact wf_lookup_node rest k v hw.2 hl

theorem wfEntries_setKey : ∀ (es : Ents) (k : String) (v : Py),
    wfEntries es = true → goodKey k = true → wfNode v = true →
    wfEntries (setKey es k v) = true
  | .nil, k, v, _, hg, hv => by
    simp [setKey, wfEntries, hg, hv, hasKey, lookupKey]
  | .cons k2 w rest, k, v, hw, hg, hv => by
    simp only [wfEntries, Bool.and_eq_true] at hw
    by_cases h : k2 = k
    · subst h
      simp only [setKey, if_pos rfl, wfEntries, Bool.and_eq_true]
      exact ⟨⟨⟨hw.1.1.1, hv⟩, hw.1.2⟩, hw.2⟩
    · simp only [setKey, if_neg h, wfEntries, Bool.and_eq_true]
      refine ⟨⟨⟨hw.1.1.1, hw.1.1.2⟩, ?_⟩, wfEntries_setKey rest k v hw.2 hg hv⟩
      rw [hasKey_setKey_other (fun e => h e.symm)]
      exact hw.1.2

theorem wfEntries_pushKey : ∀ (es : Ents) (k : String) (v : Py),
    wfEntries es = true → goodKey k = true → wfNode v = true →
    hasKey es k = false → wfEntries (pushKey es k v) = true
  | .nil, k, v, _, hg, hv, _ => by
    simp [pushKey, wfEntries, hg, hv, hasKey, lookupKey]
  | .cons k2 w rest, k, v, hw, hg, hv, habs => by
    simp only [wfEntries, Bool.and_eq_true] at hw
    unfold hasKey at habs
    simp only [lookupKey] at habs
    by_cases h : k2 = k
    · rw [if_pos h] at habs; simp at habs
    · rw [if_neg h] at habs
      simp only [pushKey, wfEntries, Bool.and_eq_true]
      refine ⟨⟨⟨hw.1.1.1, hw.1.1.2⟩, ?_⟩, wfEntries_pushKey rest k v hw.2 hg hv habs⟩
      rw [hasKey_pushKey_other rest k k2 v (fun e => h e.symm)]
      exact hw.1.2

theorem goodKey_ne_props {k : String} (h : goodKey k = true) : k ≠ "//" := by
  intro hk
  subst hk
  exact absurd h (by decide)

/-! Facts about property records and the listing abstraction. -/

theorem update_path_properties (f s : Bool) (si : Option String) :
    update_properties path_properties f s si =
      .ok (.pdict (.cons "file" (.pbool f) (.cons "stored" (.pbool s)
        (.cons "stored_in" (match si with | some t => .pstr t | none => .pnone)
          .nil)))) := by
  cases si <;> rfl

theorem update_properties_stored {pr : Py} (hw : wfProps pr = true)
    (f s : Bool) (t : String) :
    ∃ es', update_properties pr f s (some t) = .ok (.pdict es') ∧
      lookupKey es' "stored" = some (.pbool s) ∧
      storedTruthy (.pdict es') = s ∧ wfProps (.pdict es') = true := by
  cases pr with
  | pdict es =>
    refine ⟨setKey (setKey (setKey es "file" (.pbool f)) "stored" (.pbool s))
      "stored_in" (.pstr t), rfl, ?_, ?_, ?_⟩
    · rw [lookupKey_setKey_other _ _ _ _ (by decide)]
      exact lookupKey_setKey_self _ _ _
    · have hl : lookupKey (setKey (setKey (setKey es "file" (.pbool f)) "stored"
          (.pbool s)) "stored_in" (.pstr t)) "stored" = some (.pbool s) := by
        rw [lookupKey_setKey_other _ _ _ _ (by decide)]
        exact lookupKey_setKey_self _ _ _
      simp [storedTruthy, hl, pyTruthy]
    · have hl : lookupKey (setKey (setKey (setKey es "file" (.pbool f)) "stored"
          (.pbool s)) "stored_in" (.pstr t)) "stored" = some (.pbool s) := by
        rw [lookupKey_setKey_other _ _ _ _ (by decide)]
        exact lookupKey_setKey_self _ _ _
      simp [wfProps, hasKey, hl]
  | pnone => simp [wfProps] at hw
  | pbool b => simp [wfProps] at hw
  | pstr s2 => simp [wfProps] at hw

theorem listing_nil_mem {pr : Py} (rest : Ents) (h : storedTruthy pr = true) :
    ([] : List String) ∈ listingEntries (.cons "//" pr rest) := by
  simp [listingEntries, h]

theorem listing_mem_intro : ∀ (es : Ents) (key : String) (child : Py)
    (c : List String), key ≠ "//" → lookupKey es key = some child →
    c ∈ listingNode child → (key :: c) ∈ listingEntries es
  | .nil, key, child, c, _, hl, _ => by simp [lookupKey] at hl
  | .cons k v rest, key, child, c, hk, hl, hm => by
    simp only [lookupKey] at hl
    by_cases h : k = key
    · rw [if_pos h] at hl
      cases hl
      subst h
      simp only [listingEntries, if_neg hk]
      exact List.mem_append_left _ (List.mem_map_of_mem _ hm)
    · rw [if_neg h] at hl
      have ih := listing_mem_intro rest key child c hk hl hm
      by_cases h2 : k = "//"
      · simp only [listingEntries, if_pos h2]
        exact List.mem_append_right _ ih
      · simp only [listingEntries, if_neg h2]
        exact List.mem_append_right _ ih

mutual
theorem listing_shape : ∀ (es : Ents), wfEntries es = true →
    ∀ c ∈ listingEntries es, ∃ k c', c = k :: c' ∧ hasKey es k = true ∧
      (∀ x ∈ c, goodKey x = true)
  | .nil, _, c, hc => by simp [listingEntries] at hc
  | .cons k v rest, hw, c, hc => by
    simp only [wfEntries, Bool.and_eq_true] at hw
    have hknp : k ≠ "//" := goodKey_ne_props hw.1.1.1
    simp only [listingEntries, if_neg hknp] at hc
    rcases List.mem_append.mp hc with hc | hc
    · obtain ⟨c', hc', rfl⟩ := List.mem_map.mp hc
      refine ⟨k, c', rfl, ?_, ?_⟩
      · simp [hasKey, lookupKey]
      · intro x hx
        rcases List.mem_cons.mp hx with rfl | hx
        · exact hw.1.1.1
        · exact listing_good_node v hw.1.1.2 c' hc' x hx
    · obtain ⟨k2, c2, rfl, hk2, hgood⟩ := listing_shape rest hw.2 c hc
      refine ⟨k2, c2, rfl, ?_, hgood⟩
      unfold hasKey at hk2 ⊢
      simp only [lookupKey]
      by_cases h2 : k = k2
      · simp [h2]
      · rw [if_neg h2]
        exact hk2

theorem listing_good_node : ∀ (v : Py), wfNode v = true →
    ∀ c ∈ listingNode v, ∀ x ∈ c, goodKey x = true
  | .pdict (.cons kk pr rest), hw, c, hc, x, hx => by
    simp only [wfNode, Bool.and_eq_true, beq_iff_eq] at hw
    obtain ⟨⟨hk, hp⟩, hr⟩ := hw
    subst hk
    simp only [listingNode, listingEntries, if_pos rfl] at hc
    rcases List.mem_append.mp hc with hc | hc
    · have hcnil : c = [] := by
        by_cases hs : storedTruthy pr = true
        · rw [if_pos hs] at hc; simpa using hc
        · rw [if_neg hs] at hc; simp at hc
      subst hcnil
      simp at hx
    · obtain ⟨k2, c2, rfl, _, hgood⟩ := listing_shape rest hr c hc
      exact hgood x hx
  | .pnone, hw, c, hc, x, hx => by simp [wfNode] at hw
  | .pbool _, hw, c, hc, x, hx => by simp [wfNode] at hw
  | .pstr _, hw, c, hc, x, hx => by simp [wfNode] at hw
  | .pdict .nil, hw, c, hc, x, hx => by simp [wfNode] at hw
end

mutual
theorem listing_nodup_entries : ∀ (es : Ents), wfEntries es = true →
    (listingEntries es).Nodup
  | .nil, _ => by simp [listingEntries]
  | .cons k v rest, hw => by
    simp only [wfEntries, Bool.and_eq_true] at hw
    have hknp : k ≠ "//" := goodKey_ne_props hw.1.1.1
    simp only [listingEntries, if_neg hknp]
    refine List.Nodup.append ?_ (listing_nodup_entries rest hw.2) ?_
    · exact (listing_nodup_node v hw.1.1.2).map
        (fun a b h => by injection h)
    · intro c hc1 hc2
      obtain ⟨c', _, rfl⟩ := List.mem_map.mp hc1
      obtain ⟨k2, c2, heq, hk2, _⟩ := listing_shape rest hw.2 _ hc2
      injection heq with h1 _
      subst h1
      have hfalse : hasKey rest k = false := by
        have := hw.1.2
        simpa using this
      rw [hfalse] at hk2
      exact Bool.noConfusion hk2

theorem listing_nodup_node : ∀ (v : Py), wfNode v = true →
    (listingNode v).Nodup
  | .pdict (.cons kk pr rest), hw => by
    simp only [wfNode, Bool.and_eq_true, beq_iff_eq] at hw
    obtain ⟨⟨hk, hp⟩, hr⟩ := hw
    subst hk
    simp only [listingNode, listingEntries, if_pos rfl]
    refine List.Nodup.append ?_ (listing_nodup_entries rest hr) ?_
    · by_cases hs : storedTruthy pr = true <;> simp [hs]
    · intro c hc1 hc2
      have hcnil : c = [] := by
        by_cases hs : storedTruthy pr = true
        · rw [if_pos hs] at hc1; simpa using hc1
        · rw [if_neg hs] at hc1; simp at hc1
      obtain ⟨k2, c2, heq, _, _⟩ := listing_shape rest hr c hc2
      rw [hcnil] at heq
      simp at heq
  | .pnone, hw => by simp [wfNode] at hw
  | .pbool _, hw => by simp [wfNode] at hw
  | .pstr _, hw => by simp [wfNode] at hw
  | .pdict .nil, hw => by simp [wfNode] at hw
end

theorem step_def (cur part : String) :
    (if cur ≠ "" then cur ++ "/" ++ part else removesuffix part "\\") =
      step cur part := rfl

mutual
theorem getAll_listing_node : ∀ (v : Py), wfNode v = true → ∀ cur : String,
    _get_all v cur = .ok ((listingNode v).map (emit cur))
  | .pdict (.cons kk pr rest), hw, cur => by
    simp only [wfNode, Bool.and_eq_true, beq_iff_eq] at hw
    obtain ⟨⟨hk, hp⟩, hr⟩ := hw
    subst hk
    cases pr with
    | pdict pes =>
      obtain ⟨sv, hsv⟩ : ∃ sv, lookupKey pes "stored" = some sv := by
        have := hp
        unfold wfProps hasKey at this
        exact Option.isSome_iff_exists.mp this
      show getAllEntries (.cons "//" (.pdict pes) rest) cur = _
      simp only [getAllEntries, if_pos rfl, hsv]
      rw [getAll_listing_entries rest hr cur]
      have hst : storedTruthy (.pdict pes) = pyTruthy sv := by
        simp [storedTruthy, hsv]
      simp only [listingNode, listingEntries, if_pos rfl, hst]
      by_cases hb : pyTruthy sv = true
      · simp [hb, Except.bind]
        rfl
      · simp only [Bool.not_eq_true] at hb
        simp [hb, Except.bind]
        rfl
    | pnone => simp [wfProps] at hp
    | pbool _ => simp [wfProps] at hp
    | pstr _ => simp [wfProps] at hp
  | .pnone, hw, cur => by simp [wfNode] at hw
  | .pbool _, hw, cur => by simp [wfNode] at hw
  | .pstr _, hw, cur => by simp [wfNode] at hw
  | .pdict .nil, hw, cur => by simp [wfNode] at hw

theorem getAll_listing_entries : ∀ (es : Ents), wfEntries es = true →
    ∀ cur : String,
    getAllEntries es cur = .ok ((listingEntries es).map (emit cur))
  | .nil, _, cur => rfl
  | .cons k v rest, hw, cur => by
    simp only [wfEntries, Bool.and_eq_true] at hw
    have hknp : k ≠ "//" := goodKey_ne_props hw.1.1.1
    simp only [getAllEntries, if_neg hknp]
    rw [step_def cur k, getAll_listing_node v hw.1.1.2 (step cur k),
      getAll_listing_entries rest hw.2 cur]
    simp only [listingEntries, if_neg hknp, List.map_append, List.map_map,
      Except.bind]
    rfl
end

/-! Behaviour of the _add walk on well-formed trees. -/

theorem wfProps_record (f s : Bool) (x : Py) :
    wfProps (.pdict (.cons "file" (.pbool f) (.cons "stored" (.pbool s)
      (.cons "stored_in" x .nil)))) = true := by
  simp [wfProps, hasKey, lookupKey]

theorem storedTruthy_record (f s : Bool) (x : Py) :
    storedTruthy (.pdict (.cons "file" (.pbool f) (.cons "stored" (.pbool s)
      (.cons "stored_in" x .nil)))) = s := by
  simp [storedTruthy, lookupKey, pyTruthy]

theorem wfNode_shape {v : Py} (h : wfNode v = true) :
    ∃ pr tail, v = .pdict (.cons "//" pr tail) ∧ wfProps pr = true ∧
      wfEntries tail = true := by
  cases v with
  | pdict es =>
    cases es with
    | nil => simp [wfNode] at h
    | cons k pr tail =>
      simp only [wfNode, Bool.and_eq_true, beq_iff_eq] at h
      exact ⟨pr, tail, by rw [h.1.1], h.1.2, h.2⟩
  | pnone => simp [wfNode] at h
  | pbool _ => simp [wfNode] at h
  | pstr _ => simp [wfNode] at h

theorem wfNode_intro {pr : Py} {tail : Ents} (hp : wfProps pr = true)
    (ht : wfEntries tail = true) :
    wfNode (.pdict (.cons "//" pr tail)) = true := by
  simp [wfNode, hp, ht]

theorem lookup_props_head (pr : Py) (tail : Ents) :
    lookupKey (.cons "//" pr tail) "//" = some pr := by
  simp [lookupKey]

theorem lookup_skip_props {part : String} (h : part ≠ "//") (pr : Py)
    (tail : Ents) :
    lookupKey (.cons "//" pr tail) part = lookupKey tail part := by
  rw [lookupKey, if_neg (fun e => h e.symm)]

theorem setKey_props_head (pr : Py) (tail : Ents) (x : Py) :
    setKey (.cons "//" pr tail) "//" x = .cons "//" x tail := by
  simp [setKey]

theorem setKey_skip_props {part : String} (h : part ≠ "//") (pr : Py)
    (tail : Ents) (x : Py) :
    setKey (.cons "//" pr tail) part x = .cons "//" pr (setKey tail part x) := by
  rw [setKey, if_neg (fun e => h e.symm)]

theorem addParts_cons_none (isf : String → Bool) (time full lastPart : String)
    (es : Ents) (part : String) (rest : List String)
    (h : lookupKey es part = none) :
    addParts isf time full lastPart (.pdict es) (part :: rest) =
      Except.bind (update_properties path_properties (isf full) (part == lastPart)
        (if (part == lastPart) = true then some time else none))
        (fun props => Except.bind
          (addParts isf time full lastPart (.pdict (.cons "//" props .nil)) rest)
          (fun child => Except.ok (Py.pdict (pushKey es part child)))) := by
  conv_lhs => rw [addParts]
  rw [h]
  rfl

theorem addParts_cons_some_stored (isf : String → Bool)
    (time full lastPart : String) (es : Ents) (part : String)
    (rest : List String) (prc : Py) (tailc : Ents)
    (h : lookupKey es part = some (.pdict (.cons "//" prc tailc)))
    (hb : (part == lastPart) = true) :
    addParts isf time full lastPart (.pdict es) (part :: rest) =
      Except.bind (update_properties prc false true (some time))
        (fun pr2 => Except.bind
          (addParts isf time full lastPart (.pdict (.cons "//" pr2 tailc)) rest)
          (fun child => Except.ok (Py.pdict (setKey es part child)))) := by
  conv_lhs => rw [addParts]
  simp only [h, hb, if_true, lookup_props_head]
  rfl

theorem addParts_cons_some_plain (isf : String → Bool)
    (time full lastPart : String) (es : Ents) (part : String)
    (rest : List String) (childv : Py)
    (h : lookupKey es part = some childv)
    (hb : (part == lastPart) = false) :
    addParts isf time full lastPart (.pdict es) (part :: rest) =
      Except.bind (addParts isf time full lastPart childv rest)
        (fun child => Except.ok (Py.pdict (setKey es part child))) := by
  conv_lhs => rw [addParts]
  simp only [h, hb]
  rfl

theorem addParts_spec (isf : String → Bool) (time full lastPart : String) :
    ∀ (ps : List String) (es : Ents),
    ps.getLast? = some lastPart →
    (∀ k ∈ ps, goodKey k = true) →
    (wfEntries es = true ∨ wfNode (.pdict es) = true) →
    ∃ es', addParts isf time full lastPart (.pdict es) ps = .ok (.pdict es') ∧
      (wfEntries es = true → wfEntries es' = true) ∧
      (wfNode (.pdict es) = true → wfNode (.pdict es') = true) ∧
      ps ∈ listingEntries es'
  | [], es, hlast, _, _ => by simp at hlast
  | [part], es, hlast, hgood, hwf => by
    have hpl : part = lastPart := by simpa using hlast
    have hb : (part == lastPart) = true := beq_iff_eq.mpr hpl
    have hgp : goodKey part = true := hgood part (by simp)
    have hknp : part ≠ "//" := goodKey_ne_props hgp
    cases hl : lookupKey es part with
    | none =>
      have hhk : hasKey es part = false := by unfold hasKey; rw [hl]; rfl
      have heq : addParts isf time full lastPart (.pdict es) [part] =
          .ok (.pdict (pushKey es part (.pdict (.cons "//"
            (.pdict (.cons "file" (.pbool (isf full)) (.cons "stored"
              (.pbool true) (.cons "stored_in" (.pstr time) .nil)))) .nil)))) := by
        rw [addParts_cons_none isf time full lastPart es part [] hl,
          update_path_properties]
        simp [hb, Except.bind, addParts]
      have hwrec : wfNode (.pdict (.cons "//"
          (.pdict (.cons "file" (.pbool (isf full)) (.cons "stored"
            (.pbool true) (.cons "stored_in" (.pstr time) .nil)))) .nil)) = true :=
        wfNode_intro (wfProps_record _ _ _) rfl
      refine ⟨_, heq, ?_, ?_, ?_⟩
      · intro hwe
        exact wfEntries_pushKey es part _ hwe hgp hwrec hhk
      · intro hn
        obtain ⟨pr, tail, hes, hp, ht⟩ := wfNode_shape hn
        have hes2 : es = .cons "//" pr tail := by injection hes with h1
        subst hes2
        show wfNode (.pdict (.cons "//" pr (pushKey tail part _))) = true
        refine wfNode_intro hp ?_
        refine wfEntries_pushKey tail part _ ht hgp hwrec ?_
        rw [lookup_skip_props hknp] at hl
        unfold hasKey
        rw [hl]
        rfl
      · refine listing_mem_intro _ part _ [] hknp
          (lookupKey_pushKey_self es part _ hhk) ?_
        exact listing_nil_mem _ (storedTruthy_record _ _ _)
    | some childv =>
      have hwchild : wfNode childv = true := by
        rcases hwf with hwe | hn
        · exact wf_lookup_node es part childv hwe hl
        · obtain ⟨pr, tail, hes, hp, ht⟩ := wfNode_shape hn
          have hes2 : es = .cons "//" pr tail := by injection hes with h1
          subst hes2
          rw [lookup_skip_props hknp] at hl
          exact wf_lookup_node tail part childv ht hl
      obtain ⟨prc, tailc, hcv, hpc, htc⟩ := wfNode_shape hwchild
      subst hcv
      obtain ⟨pes2, hupd, hlk2, hst2, hwp2⟩ :=
        update_properties_stored hpc false true time
      have heq : addParts isf time full lastPart (.pdict es) [part] =
          .ok (.pdict (setKey es part (.pdict (.cons "//" (.pdict pes2) tailc)))) := by
        rw [addParts_cons_some_stored isf time full lastPart es part []
          prc tailc hl hb, hupd]
        simp [Except.bind, addParts]
      refine ⟨_, heq, ?_, ?_, ?_⟩
      · intro hwe
        exact wfEntries_setKey es part _ hwe hgp (wfNode_intro hwp2 htc)
      · intro hn
        obtain ⟨pr, tail, hes, hp, ht⟩ := wfNode_shape hn
        have hes2 : es = .cons "//" pr tail := by injection hes with h1
        subst hes2
        rw [setKey_skip_props hknp]
        exact wfNode_intro hp (wfEntries_setKey tail part _ ht hgp
          (wfNode_intro hwp2 htc))
      · refine listing_mem_intro _ part _ [] hknp
          (lookupKey_setKey_self es part _) ?_
        exact listing_nil_mem _ hst2
  | part :: r :: rs, es, hlast, hgood, hwf => by
    rw [List.getLast?_cons_cons] at hlast
    have hgood2 : ∀ k ∈ r :: rs, goodKey k = true :=
      fun k m => hgood k (List.mem_cons_of_mem _ m)
    have hgp : goodKey part = true := hgood part (List.mem_cons_self _ _)
    have hknp : part ≠ "//" := goodKey_ne_props hgp
    cases hl : lookupKey es part with
    | none =>
      have hhk : hasKey es part = false := by unfold hasKey; rw [hl]; rfl
      obtain ⟨esc, heqc, _, hnodec, hmemc⟩ :=
        addParts_spec isf time full lastPart (r :: rs)
          (.cons "//" (.pdict (.cons "file" (.pbool (isf full))
            (.cons "stored" (.pbool (part == lastPart))
              (.cons "stored_in" (match (if (part == lastPart) = true then
                  some time else none : Option String) with
                | some t => Py.pstr t
                | none => Py.pnone) .nil)))) .nil)
          hlast hgood2 (Or.inr (wfNode_intro (wfProps_record _ _ _) rfl))
      have hwesc : wfNode (.pdict esc) = true :=
        hnodec (wfNode_intro (wfProps_record _ _ _) rfl)
      have heq : addParts isf time full lastPart (.pdict es) (part :: r :: rs) =
          .ok (.pdict (pushKey es part (.pdict esc))) := by
        rw [addParts_cons_none isf time full lastPart es part (r :: rs) hl,
          update_path_properties]
        show Except.bind (addParts isf time full lastPart _ (r :: rs)) _ = _
        rw [heqc]
        rfl
      refine ⟨_, heq, ?_, ?_, ?_⟩
      · intro hwe
        exact wfEntries_pushKey es part _ hwe hgp hwesc hhk
      · intro hn
        obtain ⟨pr, tail, hes, hp, ht⟩ := wfNode_shape hn
        have hes2 : es = .cons "//" pr tail := by injection hes with h1
        subst hes2
        show wfNode (.pdict (.cons "//" pr (pushKey tail part _))) = true
        refine wfNode_intro hp ?_
        refine wfEntries_pushKey tail part _ ht hgp hwesc ?_
        rw [lookup_skip_props hknp] at hl
        unfold hasKey
        rw [hl]
        rfl
      · exact listing_mem_intro _ part (.pdict esc) (r :: rs) hknp
          (lookupKey_pushKey_self es part _ hhk) hmemc
    | some childv =>
      have hwchild : wfNode childv = true := by
        rcases hwf with hwe | hn
        · exact wf_lookup_node es part childv hwe hl
        · obtain ⟨pr, tail, hes, hp, ht⟩ := wfNode_shape hn
          have hes2 : es = .cons "//" pr tail := by injection hes with h1
          subst hes2
          rw [lookup_skip_props hknp] at hl
          exact wf_lookup_node tail part childv ht hl
      obtain ⟨prc, tailc, hcv, hpc, htc⟩ := wfNode_shape hwchild
      subst hcv
      cases hb : (part == lastPart) with
      | true =>
        obtain ⟨pes2, hupd, hlk2, hst2, hwp2⟩ :=
          update_properties_stored hpc false true time
        obtain ⟨esc, heqc, _, hnodec, hmemc⟩ :=
          addParts_spec isf time full lastPart (r :: rs)
            (.cons "//" (.pdict pes2) tailc) hlast hgood2
            (Or.inr (wfNode_intro hwp2 htc))
        have hwesc : wfNode (.pdict esc) = true :=
          hnodec (wfNode_intro hwp2 htc)
        have heq : addParts isf time full lastPart (.pdict es)
            (part :: r :: rs) = .ok (.pdict (setKey es part (.pdict esc))) := by
          rw [addParts_cons_some_stored isf time full lastPart es part (r :: rs)
            prc tailc hl hb, hupd]
          show Except.bind (addParts isf time full lastPart _ (r :: rs)) _ = _
          rw [heqc]
          rfl
        refine ⟨_, heq, ?_, ?_, ?_⟩
        · intro hwe
          exact wfEntries_setKey es part _ hwe hgp hwesc
        · intro hn
          obtain ⟨pr, tail, hes, hp, ht⟩ := wfNode_shape hn
          have hes2 : es = .cons "//" pr tail := by injection hes with h1
          subst hes2
          rw [setKey_skip_props hknp]
          exact wfNode_intro hp (wfEntries_setKey tail part _ ht hgp hwesc)
        · exact listing_mem_intro _ part (.pdict esc) (r :: rs) hknp
            (lookupKey_setKey_self es part _) hmemc
      | false =>
        obtain ⟨esc, heqc, _, hnodec, hmemc⟩ :=
          addParts_spec isf time full lastPart (r :: rs)
            (.cons "//" prc tailc) hlast hgood2
            (Or.inr (wfNode_intro hpc htc))
        have hwesc : wfNode (.pdict esc) = true :=
          hnodec (wfNode_intro hpc htc)
        have heq : addParts isf time full lastPart (.pdict es)
            (part :: r :: rs) = .ok (.pdict (setKey es part (.pdict esc))) := by
          rw [addParts_cons_some_plain isf time full lastPart es part (r :: rs)
            _ hl hb, heqc]
          rfl
        refine ⟨_, heq, ?_, ?_, ?_⟩
        · intro hwe
          exact wfEntries_setKey es part _ hwe hgp hwesc
        · intro hn
          obtain ⟨pr, tail, hes, hp, ht⟩ := wfNode_shape hn
          have hes2 : es = .cons "//" pr tail := by injection hes with h1
          subst hes2
          rw [setKey_skip_props hknp]
          exact wfNode_intro hp (wfEntries_setKey tail part _ ht hgp hwesc)
        · exact listing_mem_intro _ part (.pdict esc) (r :: rs) hknp
            (lookupKey_setKey_self es part _) hmemc

/-! Top-level behaviour of add_path on well-formed trees. -/

theorem add_path_spec (ex isf : String → Bool) (time : String) (data : Py)
    (p : String) (hwf : wfData data = true)
    (hgood : ∀ k ∈ pySplit p, goodKey k = true) (hex : ex p = true) :
    ∃ es', add_path ex isf time data p = .ok (.pdict es') ∧
      wfEntries es' = true ∧ pySplit p ∈ listingEntries es' := by
  have hpne : p ≠ "" := by
    intro hp
    subst hp
    have : goodKey "" = true := hgood "" (by rw [show pySplit "" = [""] from rfl]; simp)
    exact absurd this (by decide)
  cases data with
  | pdict es =>
    have hwe : wfEntries es = true := hwf
    obtain ⟨lp, hlp⟩ : ∃ lp, (pySplit p).getLast? = some lp := by
      cases hsplit : pySplit p with
      | nil => exact absurd hsplit (pySplit_ne_nil p)
      | cons a t =>
        exact ⟨(a :: t).getLast (by simp), List.getLast?_eq_getLast _ _⟩
    obtain ⟨es', heq, himp, _, hmem⟩ :=
      addParts_spec isf time p lp (pySplit p) es hlp hgood (Or.inl hwe)
    refine ⟨es', ?_, himp hwe, hmem⟩
    unfold add_path _add
    rw [if_neg hpne, joinSlash_pySplit]
    simp only [hex, Bool.not_true, Bool.false_eq_true, if_false]
    show addParts isf time p ((pySplit p).getLastD "") (.pdict es) (pySplit p) =
      _
    rw [List.getLastD_eq_getLast?, hlp]
    exact heq
  | pnone => simp [wfData] at hwf
  | pbool _ => simp [wfData] at hwf
  | pstr _ => simp [wfData] at hwf

/-! Claim theorems. -/

/-- C1, counterexample to the claim as stated: the filesystem oracle
reports every path as existing, so "/a" exists at call time; register("/a")
succeeds, yet contains("/a") is false afterwards (the tree walk rebuilds
the path of the terminal node as "a", because the empty first segment
produced by the leading slash is dropped by the path reconstruction of
_get_all). -/
theorem add_path_contains_cex :
    Except.bind (add_path (fun _ => true) (fun _ => false) "T"
      (.pdict .nil) "/a") (fun t => in_the_data t "/a") = .ok false := by
  rfl

/-- C1, amended: for every path p whose segments are all non-empty and
free of trailing backslashes, if the filesystem oracle reports p as
existing at call time and the store's tree is well formed, then after
register(p) (add_path) the call contains(p) (in_the_data) returns true
and p appears in the sequence returned by listAll (get_all) exactly
once. -/
theorem add_path_registers_once (ex isf : String → Bool) (time : String)
    (data : Py) (p : String) (hwf : wfData data = true)
    (hgood : ∀ k ∈ pySplit p, goodKey k = true) (hex : ex p = true) :
    ∃ t', add_path ex isf time data p = .ok t' ∧
      in_the_data t' p = .ok true ∧
      ∃ l, get_all t' = .ok l ∧ l.count p = 1 := by
  obtain ⟨es', heq, hwe', hmem⟩ := add_path_spec ex isf time data p hwf hgood hex
  have hlist : get_all (.pdict es') =
      .ok ((listingEntries es').map (emit "")) :=
    getAll_listing_entries es' hwe' ""
  have hemit : emit "" (pySplit p) = p := by
    cases hsplit : pySplit p with
    | nil => exact absurd hsplit (pySplit_ne_nil p)
    | cons k ks =>
      have hgk : goodKey k = true := by
        refine hgood k ?_
        rw [hsplit]
        exact List.mem_cons_self _ _
      rw [emit_root_eq_join k ks hgk, ← hsplit, joinSlash_pySplit]
  have hpmem : p ∈ (listingEntries es').map (emit "") := by
    rw [← hemit]
    exact List.mem_map_of_mem _ hmem
  have hnodup : ((listingEntries es').map (emit "")).Nodup := by
    refine (listing_nodup_entries es' hwe').map_on ?_
    intro c1 hc1 c2 hc2 hcc
    obtain ⟨k1, cs1, rfl, _, hg1⟩ := listing_shape es' hwe' c1 hc1
    obtain ⟨k2, cs2, rfl, _, hg2⟩ := listing_shape es' hwe' c2 hc2
    exact emit_root_inj hg1 hg2 (by simp) (by simp) hcc
  refine ⟨.pdict es', heq, ?_, _, hlist, List.count_eq_one_of_mem hnodup hpmem⟩
  unfold in_the_data
  rw [show get_all (.pdict es') = _ from hlist]
  show Except.ok (List.elem p ((listingEntries es').map (emit ""))) = .ok true
  rw [List.elem_eq_true_of_mem hpmem]

/-- C1, witness: registering "a/b" into the empty store with an
all-existing filesystem oracle satisfies the amended theorem's
hypotheses. -/
theorem add_path_registers_once_witness :
    wfData (.pdict .nil) = true ∧
    (∀ k ∈ pySplit "a/b", goodKey k = true) ∧
    (fun _ : String => true) "a/b" = true ∧
    (∃ t', add_path (fun _ => true) (fun _ => true) "T" (.pdict .nil) "a/b" =
        .ok t' ∧
      in_the_data t' "a/b" = .ok true ∧
      ∃ l, get_all t' = .ok l ∧ l.count "a/b" = 1) :=
  ⟨rfl, by decide, rfl,
    add_path_registers_once (fun _ => true) (fun _ => true) "T" (.pdict .nil)
      "a/b" rfl (by decide) rfl⟩

/-- C2: the code contradicts the claim (and the spec's stated intent) on
the metadata of structural nodes.  Registering "a/b/c" when "a/b" is a
directory and "a/b/c" an existing file: _add recomputes
os.path.isfile("/".join(parts)) — the file-ness of the WHOLE path — for
every segment, so the structural nodes a and b are created with
file=True, not False.  The rest of the claim holds: a and b are not
stored and carry no timestamp, c is stored with isFile=true, and
listAll() returns exactly ["a/b/c"]. -/
theorem add_path_structural_file_bug :
    Except.bind (add_path (fun s => s == "a/b" || s == "a/b/c")
        (fun s => s == "a/b/c") "T" (.pdict .nil) "a/b/c")
      (fun t => get_properties t "a") =
      .ok (.pdict (.cons "file" (.pbool true) (.cons "stored" (.pbool false)
        (.cons "stored_in" .pnone .nil)))) ∧
    Except.bind (add_path (fun s => s == "a/b" || s == "a/b/c")
        (fun s => s == "a/b/c") "T" (.pdict .nil) "a/b/c")
      (fun t => get_properties t "a/b") =
      .ok (.pdict (.cons "file" (.pbool true) (.cons "stored" (.pbool false)
        (.cons "stored_in" .pnone .nil)))) ∧
    Except.bind (add_path (fun s => s == "a/b" || s == "a/b/c")
        (fun s => s == "a/b/c") "T" (.pdict .nil) "a/b/c")
      (fun t => get_properties t "a/b/c") =
      .ok (.pdict (.cons "file" (.pbool true) (.cons "stored" (.pbool true)
        (.cons "stored_in" (.pstr "T") .nil)))) ∧
    Except.bind (add_path (fun s => s == "a/b" || s == "a/b/c")
        (fun s => s == "a/b/c") "T" (.pdict .nil) "a/b/c")
      (fun t => get_all t) = .ok ["a/b/c"] :=
  ⟨rfl, rfl, rfl, rfl⟩

/-- C3, counterexample to the claim as stated: "f" is registered in the
tree (contains("f") is true), but once the filesystem oracle reports it
as no longer existing, unregister("f") does not succeed — remove_path
checks os.path.exists(path) first and raises FileNotFoundError. -/
theorem remove_path_checks_existence_cex :
    Except.bind (add_path (fun _ => true) (fun _ => true) "T"
        (.pdict .nil) "f") (fun t => in_the_data t "f") = .ok true ∧
    Except.bind (add_path (fun _ => true) (fun _ => true) "T"
        (.pdict .nil) "f") (fun t => remove_path (fun _ => false) t "f") =
      .error (.fileNotFoundError "Path \"f\" was not found.") :=
  ⟨rfl, rfl⟩

/-- C3, amended: remove_path does re-validate existence against the
filesystem oracle.  For every non-empty path p that the oracle reports as
missing at call time, unregister(p) (remove_path) fails with
FileNotFoundError before touching the tree, whether or not p is
registered; removal succeeds only for paths the oracle still reports as
existing. -/
theorem remove_path_missing_file_errors (ex : String → Bool) (data : Py)
    (p : String) (hp : p ≠ "") (hex : ex p = false) :
    remove_path ex data p =
      .error (.fileNotFoundError
        (formatOne "Path \"\x7b\x7d\" was not found." p)) := by
  unfold remove_path
  rw [if_neg hp]
  simp only [hex, Bool.not_false, if_true]
  rfl

/-- C3, witness: removing "x" when the oracle reports nothing as existing
raises FileNotFoundError. -/
theorem remove_path_missing_file_errors_witness :
    ("x" : String) ≠ "" ∧ (fun _ : String => false) "x" = false ∧
    remove_path (fun _ => false) (.pdict .nil) "x" =
      .error (.fileNotFoundError
        (formatOne "Path \"\x7b\x7d\" was not found." "x")) :=
  ⟨by decide, rfl,
    remove_path_missing_file_errors (fun _ => false) (.pdict .nil) "x"
      (by decide) rfl⟩

/-- C5: the code contradicts the claim's (and the spec's) idempotence up
to the timestamp.  Re-registering the already-registered file "f" goes
through the update branch of _add, which calls update_properties without
the file argument; the Python default False is "not None", so the
terminal's file flag is overwritten to False.  The registered-path set is
unchanged (contains stays true, one occurrence in listAll), but the
terminal metadata differs beyond registeredAt: isFile flips from true to
false. -/
theorem re_add_path_resets_file_flag :
    Except.bind (add_path (fun _ => true) (fun s => s == "f") "T1"
        (.pdict .nil) "f") (fun t => get_properties t "f") =
      .ok (.pdict (.cons "file" (.pbool true) (.cons "stored" (.pbool true)
        (.cons "stored_in" (.pstr "T1") .nil)))) ∧
    Except.bind (Except.bind (add_path (fun _ => true) (fun s => s == "f")
        "T1" (.pdict .nil) "f")
      (fun t => add_path (fun _ => true) (fun s => s == "f") "T2" t "f"))
      (fun t => get_properties t "f") =
      .ok (.pdict (.cons "file" (.pbool false) (.cons "stored" (.pbool true)
        (.cons "stored_in" (.pstr "T2") .nil)))) ∧
    Except.bind (Except.bind (add_path (fun _ => true) (fun s => s == "f")
        "T1" (.pdict .nil) "f")
      (fun t => add_path (fun _ => true) (fun s => s == "f") "T2" t "f"))
      (fun t => get_all t) = .ok ["f"] :=
  ⟨rfl, rfl, rfl⟩

/-- C6, counterexample to the claim as stated: the empty path is not
registered in the tree, yet unregister("") does not fail at all —
remove_path treats a falsy path as a silent no-op and returns with the
tree unchanged. -/
theorem remove_path_empty_silent_cex :
    remove_path (fun _ => true) (.pdict .nil) "" = .ok (.pdict .nil) := by
  rfl

/-- C6, amended: for every non-empty path p that the filesystem oracle
reports as existing but whose terminal node is not currently registered,
unregister(p) (remove_path) fails with the ValueError raised by
list.remove on the stored-path list (the code has no dedicated
PathNotRegisteredError), and the store's tree is left exactly as it was
(the failure happens before any mutation).  A path the oracle reports as
missing fails with FileNotFoundError instead, and the empty path is a
silent no-op. -/
theorem remove_path_unregistered_valueerror (ex : String → Bool) (data : Py)
    (p : String) (l : List String) (hp : p ≠ "") (hex : ex p = true)
    (hl : get_all data = .ok l) (hnot : p ∉ l) :
    remove_path ex data p = .error .valueError := by
  unfold remove_path
  rw [if_neg hp]
  simp only [hex, Bool.not_true, Bool.false_eq_true, if_false, hl]
  show Except.bind (listRemove l p) _ = _
  rw [listRemove, if_neg hnot]
  rfl

/-- C6, witness: removing the unregistered path "x" from the empty store
(with an all-existing oracle) raises ValueError. -/
theorem remove_path_unregistered_valueerror_witness :
    ("x" : String) ≠ "" ∧ (fun _ : String => true) "x" = true ∧
    get_all (.pdict .nil) = .ok [] ∧ ("x" : String) ∉ ([] : List String) ∧
    remove_path (fun _ => true) (.pdict .nil) "x" = .error .valueError :=
  ⟨by decide, rfl, rfl, by decide,
    remove_path_unregistered_valueerror (fun _ => true) (.pdict .nil) "x" []
      (by decide) rfl rfl (by decide)⟩

/-- C7, counterexample to the claim as stated: the oracle reports the
empty path as not existing, yet register("") raises no PathNotFoundError
at all — add_path treats a falsy path as a silent no-op. -/
theorem add_path_empty_silent_cex :
    add_path (fun _ => false) (fun _ => false) "T" (.pdict .nil) "" =
      .ok (.pdict .nil) := by
  rfl

/-- C7, amended: for every non-empty path p for which the filesystem
oracle reports exists(p) as false, register(p) (add_path / _add) fails
with FileNotFoundError (the code's PathNotFoundError) and performs no
tree mutation: the error is raised before the walk starts.  The empty
path is a silent no-op instead of an error. -/
theorem add_path_missing_errors (ex isf : String → Bool) (time : String)
    (data : Py) (p : String) (hp : p ≠ "") (hex : ex p = false) :
    add_path ex isf time data p =
      .error (.fileNotFoundError
        (formatOne "Path \"\x7b\x7d\" was not found." p)) := by
  unfold add_path _add
  rw [if_neg hp, joinSlash_pySplit]
  simp only [hex, Bool.not_false, if_true]
  rfl

/-- C7, witness: registering "x" when the oracle reports nothing as
existing raises FileNotFoundError. -/
theorem add_path_missing_errors_witness :
    ("x" : String) ≠ "" ∧ (fun _ : String => false) "x" = false ∧
    add_path (fun _ => false) (fun _ => false) "T" (.pdict .nil) "x" =
      .error (.fileNotFoundError
        (formatOne "Path \"\x7b\x7d\" was not found." "x")) :=
  ⟨by decide, rfl,
    add_path_missing_errors (fun _ => false) (fun _ => false) "T"
      (.pdict .nil) "x" (by decide) rfl⟩

/-- C8: serialization round-trip.  save hands self.data to the external
JSON codec (spec section 6) and load parses the byte stream back and
calls set_data.  For any codec satisfying the collaborator contract that
parsing a dumped tree returns that tree, loading what save wrote
re-installs a tree identical to the original — in particular equal as a
set of registered paths with identical metadata records. -/
theorem save_load_roundtrip (dump : Py → String)
    (parse : String → Except Err Py) (es : Ents)
    (hcodec : parse (save dump (.pdict es)) = .ok (.pdict es)) :
    load parse (save dump (.pdict es)) = .ok (.pdict es) := by
  unfold load
  rw [hcodec]
  rfl

/-- C8, witness: a codec pair satisfying the round-trip contract on the
empty tree. -/
theorem save_load_roundtrip_witness :
    (fun _ : String => (Except.ok (Py.pdict .nil) : Except Err Py))
        (save (fun _ => "") (.pdict .nil)) = .ok (.pdict .nil) ∧
    load (fun _ : String => (Except.ok (Py.pdict .nil) : Except Err Py))
        (save (fun _ => "") (.pdict .nil)) = .ok (.pdict .nil) :=
  ⟨rfl, save_load_roundtrip (fun _ => "")
    (fun _ => (Except.ok (Py.pdict .nil) : Except Err Py)) .nil rfl⟩

/-- C9: the code contradicts its own docstring (which documents a
TypeError) on non-mapping input.  set_data formats its error message with
msg["type_error"], but the module table's key is spelled "TypeError", so
building the TypeError message itself raises KeyError("type_error"); the
store's tree is untouched because the failure happens before the
assignment.  Shown here on a string and on None. -/
theorem set_data_raises_keyerror :
    set_data (.pstr "x") = .error (.keyError "type_error") ∧
    set_data .pnone = .error (.keyError "type_error") :=
  ⟨rfl, rfl⟩

/-- C10: the read-only operations listAll (get_all), contains
(in_the_data) and metadataOf (get_properties) never mutate the store: for
every tree and every path argument, the state of self.data after any of
these calls — including calls that raise — is the tree before the call.
The source bodies contain no assignment to self.data or to any nested
node (get_all and get_properties work on obj.copy() reads), which the
state-passing translation mirrors. -/
theorem readonly_calls_preserve_data :
    ∀ (s : Py) (path : String),
      (get_all_call s).2 = s ∧ (in_the_data_call s path).2 = s ∧
      (get_properties_call s path).2 = s :=
  fun _ _ => ⟨rfl, rfl, rfl⟩

/-! Machinery for the remove_path rebuild: how pushKey and setKey change
the listing and the set of node chains. -/

theorem listing_pushKey : ∀ (es : Ents) (k : String) (v : Py), k ≠ "//" →
    listingEntries (pushKey es k v) =
      listingEntries es ++ (listingNode v).map (k :: ·)
  | .nil, k, v, hk => by simp [pushKey, listingEntries, if_neg hk]
  | .cons k2 u rest, k, v, hk => by
    by_cases h2 : k2 = "//"
    · subst h2
      simp only [pushKey, listingEntries, eq_self_iff_true, if_true,
        listing_pushKey rest k v hk, List.append_assoc]
    · simp only [pushKey, listingEntries, if_neg h2,
        listing_pushKey rest k v hk, List.append_assoc]

theorem chains_pushKey : ∀ (es : Ents) (k : String) (v : Py), k ≠ "//" →
    chainsEntries (pushKey es k v) =
      chainsEntries es ++ [k] :: (chainsNode v).map (k :: ·)
  | .nil, k, v, hk => by simp [pushKey, chainsEntries, if_neg hk]
  | .cons k2 u rest, k, v, hk => by
    by_cases h2 : k2 = "//"
    · subst h2
      simp only [pushKey, chainsEntries, eq_self_iff_true, if_true,
        chains_pushKey rest k v hk]
    · simp only [pushKey, chainsEntries, if_neg h2,
        chains_pushKey rest k v hk, List.cons_append, List.append_assoc]

theorem listing_setKey_decomp : ∀ (es : Ents) (k : String) (v w : Py),
    lookupKey es k = some v → k ≠ "//" →
    ∃ A B, listingEntries es = A ++ (listingNode v).map (k :: ·) ++ B ∧
      listingEntries (setKey es k w) = A ++ (listingNode w).map (k :: ·) ++ B
  | .nil, k, v, w, hl, _ => by simp [lookupKey] at hl
  | .cons k2 u rest, k, v, w, hl, hk => by
    simp only [lookupKey] at hl
    by_cases h2 : k2 = k
    · rw [if_pos h2] at hl
      cases hl
      subst h2
      refine ⟨[], listingEntries rest, ?_, ?_⟩
      · simp [listingEntries, if_neg hk]
      · simp [setKey, listingEntries, if_neg hk]
    · rw [if_neg h2] at hl
      obtain ⟨A, B, h1, h3⟩ := listing_setKey_decomp rest k v w hl hk
      by_cases h4 : k2 = "//"
      · subst h4
        refine ⟨(if storedTruthy u then [([] : List String)] else []) ++ A, B,
          ?_, ?_⟩
        · simp [listingEntries, if_pos rfl, h1, List.append_assoc]
        · simp [setKey, if_neg h2, listingEntries, if_pos rfl, h3,
            List.append_assoc]
      · refine ⟨(listingNode u).map (k2 :: ·) ++ A, B, ?_, ?_⟩
        · simp [listingEntries, if_neg h4, h1, List.append_assoc]
        · simp [setKey, if_neg h2, listingEntries, if_neg h4, h3,
            List.append_assoc]

theorem chains_setKey_decomp : ∀ (es : Ents) (k : String) (v w : Py),
    lookupKey es k = some v → k ≠ "//" →
    ∃ A B, chainsEntries es = A ++ ([k] :: (chainsNode v).map (k :: ·)) ++ B ∧
      chainsEntries (setKey es k w) =
        A ++ ([k] :: (chainsNode w).map (k :: ·)) ++ B
  | .nil, k, v, w, hl, _ => by simp [lookupKey] at hl
  | .cons k2 u rest, k, v, w, hl, hk => by
    simp only [lookupKey] at hl
    by_cases h2 : k2 = k
    · rw [if_pos h2] at hl
      cases hl
      subst h2
      refine ⟨[], chainsEntries rest, ?_, ?_⟩
      · simp [chainsEntries, if_neg hk]
      · simp [setKey, chainsEntries, if_neg hk]
    · rw [if_neg h2] at hl
      obtain ⟨A, B, h1, h3⟩ := chains_setKey_decomp rest k v w hl hk
      by_cases h4 : k2 = "//"
      · subst h4
        refine ⟨A, B, ?_, ?_⟩
        · simp [chainsEntries, if_pos rfl, h1]
        · simp [setKey, if_neg h2, chainsEntries, if_pos rfl, h3]
      · refine ⟨([k2] :: (chainsNode u).map (k2 :: ·)) ++ A, B, ?_, ?_⟩
        · simp [chainsEntries, if_neg h4, h1, List.append_assoc]
        · simp [setKey, if_neg h2, chainsEntries, if_neg h4, h3,
            List.append_assoc]

theorem chains_key_mem : ∀ (es : Ents) (k : String), k ≠ "//" →
    hasKey es k = true → [k] ∈ chainsEntries es
  | .nil, k, _, hh => by simp [hasKey, lookupKey] at hh
  | .cons k2 u rest, k, hk, hh => by
    unfold hasKey at hh
    simp only [lookupKey] at hh
    by_cases h2 : k2 = k
    · subst h2
      simp [chainsEntries, if_neg hk]
    · rw [if_neg h2] at hh
      have ih := chains_key_mem rest k hk hh
      by_cases h4 : k2 = "//"
      · simp only [chainsEntries, if_pos h4]
        exact ih
      · simp only [chainsEntries, if_neg h4]
        exact List.mem_append_right _ ih

theorem chains_mem_intro : ∀ (es : Ents) (k : String) (v : Py)
    (c : List String), k ≠ "//" → lookupKey es k = some v →
    c ∈ chainsNode v → (k :: c) ∈ chainsEntries es
  | .nil, k, v, c, _, hl, _ => by simp [lookupKey] at hl
  | .cons k2 u rest, k, v, c, hk, hl, hm => by
    simp only [lookupKey] at hl
    by_cases h2 : k2 = k
    · rw [if_pos h2] at hl
      cases hl
      subst h2
      simp only [chainsEntries, if_neg hk]
      refine List.mem_append_left _ (List.mem_cons_of_mem _ ?_)
      exact List.mem_map_of_mem _ hm
    · rw [if_neg h2] at hl
      have ih := chains_mem_intro rest k v c hk hl hm
      by_cases h4 : k2 = "//"
      · simp only [chainsEntries, if_pos h4]
        exact ih
      · simp only [chainsEntries, if_neg h4]
        exact List.mem_append_right _ ih

mutual
theorem listing_subset_chains_entries : ∀ (es : Ents) (c : List String),
    c ∈ listingEntries es → c ≠ [] → c ∈ chainsEntries es
  | .nil, c, hc, _ => by simp [listingEntries] at hc
  | .cons k u rest, c, hc, hne => by
    by_cases h4 : k = "//"
    · subst h4
      simp only [listingEntries, if_pos rfl] at hc
      simp only [chainsEntries, if_pos rfl]
      rcases List.mem_append.mp hc with hc | hc
      · exfalso
        by_cases hs : storedTruthy u = true
        · rw [if_pos hs] at hc
          simp at hc
          exact hne hc
        · rw [if_neg hs] at hc
          simp at hc
      · exact listing_subset_chains_entries rest c hc hne
    · simp only [listingEntries, if_neg h4] at hc
      simp only [chainsEntries, if_neg h4]
      rcases List.mem_append.mp hc with hc | hc
      · obtain ⟨c', hc', rfl⟩ := List.mem_map.mp hc
        refine List.mem_append_left _ ?_
        rcases c' with _ | ⟨x, c''⟩
        · exact List.mem_cons_self _ _
        · refine List.mem_cons_of_mem _ ?_
          refine List.mem_map_of_mem _ ?_
          exact listing_subset_chains_node u (x :: c'') hc' (by simp)
      · exact List.mem_append_right _
          (listing_subset_chains_entries rest c hc hne)

theorem listing_subset_chains_node : ∀ (v : Py) (c : List String),
    c ∈ listingNode v → c ≠ [] → c ∈ chainsNode v
  | .pdict es, c, hc, hne => listing_subset_chains_entries es c hc hne
  | .pnone, c, hc, _ => by simp [listingNode] at hc
  | .pbool _, c, hc, _ => by simp [listingNode] at hc
  | .pstr _, c, hc, _ => by simp [listingNode] at hc
end

mutual
theorem listing_pairwise_entries : ∀ (es : Ents), wfEntries es = true →
    (listingEntries es).Pairwise (fun a b => ¬ b <+: a)
  | .nil, _ => by simp [listingEntries]
  | .cons k v rest, hw => by
    simp only [wfEntries, Bool.and_eq_true] at hw
    have hknp : k ≠ "//" := goodKey_ne_props hw.1.1.1
    simp only [listingEntries, if_neg hknp]
    rw [List.pairwise_append]
    refine ⟨?_, listing_pairwise_entries rest hw.2, ?_⟩
    · have hnode := listing_pairwise_node v hw.1.1.2
      refine List.Pairwise.map _ ?_ hnode
      intro a b hab hpre
      exact hab ((List.cons_prefix_cons.mp hpre).2)
    · intro a ha b hb hpre
      obtain ⟨c', _, rfl⟩ := List.mem_map.mp ha
      obtain ⟨k2, c2, rfl, hk2, _⟩ := listing_shape rest hw.2 b hb
      rw [(List.cons_prefix_cons.mp hpre).1] at hk2
      have hfalse : hasKey rest k = false := by simpa using hw.1.2
      rw [hfalse] at hk2
      exact Bool.noConfusion hk2

theorem listing_pairwise_node : ∀ (v : Py), wfNode v = true →
    (listingNode v).Pairwise (fun a b => ¬ b <+: a)
  | .pdict (.cons kk pr rest), hw => by
    simp only [wfNode, Bool.and_eq_true, beq_iff_eq] at hw
    obtain ⟨⟨hk, hp⟩, hr⟩ := hw
    subst hk
    simp only [listingNode, listingEntries, eq_self_iff_true, if_true]
    rw [List.pairwise_append]
    refine ⟨?_, listing_pairwise_entries rest hr, ?_⟩
    · by_cases hs : storedTruthy pr = true <;> simp [hs]
    · intro a ha b hb hpre
      have hanil : a = [] := by
        by_cases hs : storedTruthy pr = true
        · rw [if_pos hs] at ha; simpa using ha
        · rw [if_neg hs] at ha; simp at ha
      subst hanil
      obtain ⟨k2, c2, rfl, _, _⟩ := listing_shape rest hr b hb
      simp at hpre
  | .pnone, hw => by simp [wfNode] at hw
  | .pbool _, hw => by simp [wfNode] at hw
  | .pstr _, hw => by simp [wfNode] at hw
  | .pdict .nil, hw => by simp [wfNode] at hw
end

theorem listing_mem_elim : ∀ (es : Ents) (k : String) (c' : List String),
    wfEntries es = true → (k :: c') ∈ listingEntries es →
    ∃ v, lookupKey es k = some v ∧ c' ∈ listingNode v
  | .nil, k, c', _, hc => by simp [listingEntries] at hc
  | .cons k2 u rest, k, c', hw, hc => by
    simp only [wfEntries, Bool.and_eq_true] at hw
    have hknp : k2 ≠ "//" := goodKey_ne_props hw.1.1.1
    simp only [listingEntries, if_neg hknp] at hc
    rcases List.mem_append.mp hc with hc | hc
    · obtain ⟨c2, hc2, heq⟩ := List.mem_map.mp hc
      injection heq with h1 h2
      subst h1
      subst h2
      exact ⟨u, by simp [lookupKey], hc2⟩
    · obtain ⟨v, hl, hm⟩ := listing_mem_elim rest k c' hw.2 hc
      refine ⟨v, ?_, hm⟩
      simp only [lookupKey]
      by_cases h2 : k2 = k
      · exfalso
        subst h2
        have : hasKey rest k2 = true := by unfold hasKey; rw [hl]; rfl
        have hfalse : hasKey rest k2 = false := by simpa using hw.1.2
        rw [hfalse] at this
        exact Bool.noConfusion this
      · rw [if_neg h2]
        exact hl

theorem listing_nil_stored : ∀ (v : Py), wfNode v = true →
    ([] : List String) ∈ listingNode v →
    ∃ pr tail, v = .pdict (.cons "//" pr tail) ∧ storedTruthy pr = true := by
  intro v hw hm
  obtain ⟨pr, tail, rfl, hp, ht⟩ := wfNode_shape hw
  refine ⟨pr, tail, rfl, ?_⟩
  simp only [listingNode, listingEntries, eq_self_iff_true, if_true] at hm
  rcases List.mem_append.mp hm with hm | hm
  · by_cases hs : storedTruthy pr = true
    · exact hs
    · rw [if_neg hs] at hm
      simp at hm
  · obtain ⟨k2, c2, heq, _, _⟩ := listing_shape tail ht _ hm
    simp at heq

theorem walk_listing_node : ∀ (c : List String) (v : Py), wfNode v = true →
    c ∈ listingNode v → ∃ pr, getPropertiesWalk v c = .ok pr ∧
      wfProps pr = true ∧ storedTruthy pr = true
  | [], v, hw, hm => by
    obtain ⟨pr, tail, rfl, hst⟩ := listing_nil_stored v hw hm
    have hw2 := hw
    simp only [wfNode, Bool.and_eq_true, beq_iff_eq] at hw2
    exact ⟨pr, by simp [getPropertiesWalk, lookup_props_head], hw2.1.2, hst⟩
  | k :: c', v, hw, hm => by
    obtain ⟨pr, tail, rfl, hp, ht⟩ := wfNode_shape hw
    simp only [listingNode, listingEntries, eq_self_iff_true, if_true] at hm
    have hm2 : (k :: c') ∈ listingEntries tail := by
      rcases List.mem_append.mp hm with hm | hm
      · exfalso
        by_cases hs : storedTruthy pr = true
        · rw [if_pos hs] at hm; simp at hm
        · rw [if_neg hs] at hm; simp at hm
      · exact hm
    obtain ⟨kk, cc, heq, _, hgood⟩ := listing_shape tail ht _ hm2
    have hgk : goodKey k = true := by
      have h1 : k = kk := by injection heq
      rw [h1]
      apply hgood
      rw [heq]
      exact List.mem_cons_self _ _
    obtain ⟨v2, hl, hm3⟩ := listing_mem_elim tail k c' ht hm2
    obtain ⟨pr2, hwalk, hwp2, hst2⟩ := walk_listing_node c' v2
      (wf_lookup_node tail k v2 ht hl) hm3
    refine ⟨pr2, ?_, hwp2, hst2⟩
    show getPropertiesWalk (.pdict (.cons "//" pr tail)) (k :: c') = _
    simp only [getPropertiesWalk, lookup_skip_props (goodKey_ne_props hgk), hl]
    exact hwalk

theorem walk_listing_root (c : List String) (es : Ents)
    (hw : wfEntries es = true) (hm : c ∈ listingEntries es) :
    ∃ pr, getPropertiesWalk (.pdict es) c = .ok pr ∧
      wfProps pr = true ∧ storedTruthy pr = true := by
  obtain ⟨k, c', rfl, _, hgood⟩ := listing_shape es hw c hm
  obtain ⟨v, hl, hm2⟩ := listing_mem_elim es k c' hw hm
  obtain ⟨pr, hwalk, hwp, hst⟩ := walk_listing_node c' v
    (wf_lookup_node es k v hw hl) hm2
  refine ⟨pr, ?_, hwp, hst⟩
  simp only [getPropertiesWalk, hl]
  exact hwalk

theorem get_properties_of_listing (es : Ents) (c : List String)
    (hw : wfEntries es = true) (hm : c ∈ listingEntries es) :
    ∃ pr, get_properties (.pdict es) (emit "" c) = .ok pr ∧
      wfProps pr = true ∧ storedTruthy pr = true := by
  obtain ⟨k, c', rfl, _, hgood⟩ := listing_shape es hw c hm
  have hsplit : pySplit (emit "" (k :: c')) = k :: c' := by
    rw [emit_root_eq_join k c' (hgood k (List.mem_cons_self _ _))]
    refine pySplit_joinSlash (k :: c') (by simp) ?_
    intro x hx
    exact goodKey_no_slash (hgood x hx)
  unfold get_properties
  rw [hsplit]
  exact walk_listing_root (k :: c') es hw hm

theorem removeAddGo_cons_none (olddata : Py) (q lastPart : String) (P : Py)
    (es : Ents) (part : String) (rest : List String)
    (hprops : get_properties olddata q = .ok P)
    (hl : lookupKey es part = none) :
    removeAddGo olddata q lastPart (.pdict es) (part :: rest) =
      Except.bind (removeAddGo olddata q lastPart
        (.pdict (.cons "//" (if (part == lastPart) = true then P
          else path_properties) .nil)) rest)
        (fun child => .ok (.pdict (pushKey es part child))) := by
  conv_lhs => rw [removeAddGo]
  rw [hprops]
  simp only [hl]
  rfl

theorem removeAddGo_cons_some (olddata : Py) (q lastPart : String) (P : Py)
    (es : Ents) (part : String) (rest : List String) (childv : Py)
    (hprops : get_properties olddata q = .ok P)
    (hl : lookupKey es part = some childv) :
    removeAddGo olddata q lastPart (.pdict es) (part :: rest) =
      Except.bind (removeAddGo olddata q lastPart childv rest)
        (fun child => .ok (.pdict (setKey es part child))) := by
  conv_lhs => rw [removeAddGo]
  rw [hprops]
  simp only [hl]
  rfl

theorem prefix_singleton_iff {c : List String} {k : String} :
    (c ≠ [] ∧ c <+: [k]) ↔ c = [k] := by
  constructor
  · rintro ⟨hne, hpre⟩
    cases c with
    | nil => exact absurd rfl hne
    | cons x cs =>
      obtain ⟨h1, h2⟩ := List.cons_prefix_cons.mp hpre
      subst h1
      simp [List.prefix_nil.mp h2]
  · rintro rfl
    exact ⟨by simp, List.prefix_refl _⟩

theorem removeAddGo_spec (olddata : Py) (q lastPart : String) (P : Py)
    (hprops : get_properties olddata q = .ok P) (hwP : wfProps P = true)
    (hstP : storedTruthy P = true) :
    ∀ (d : List String) (es : Ents),
    d.getLast? = some lastPart →
    (∀ k ∈ d, goodKey k = true) →
    (∀ k ∈ d.dropLast, k ≠ lastPart) →
    (wfEntries es = true ∨ wfNode (.pdict es) = true) →
    d ∉ chainsEntries es →
    ∃ es', removeAddGo olddata q lastPart (.pdict es) d = .ok (.pdict es') ∧
      (wfEntries es = true → wfEntries es' = true) ∧
      (wfNode (.pdict es) = true → wfNode (.pdict es') = true) ∧
      List.Perm (listingEntries es') (d :: listingEntries es) ∧
      (∀ c, c ∈ chainsEntries es' ↔ c ∈ chainsEntries es ∨
        (c ≠ [] ∧ c <+: d))
  | [], es, hlast, _, _, _, _ => by simp at hlast
  | [part], es, hlast, hgood, _, hwf, hnot => by
    have hpl : part = lastPart := by simpa using hlast
    have hb : (part == lastPart) = true := beq_iff_eq.mpr hpl
    have hgp : goodKey part = true := hgood part (by simp)
    have hknp : part ≠ "//" := goodKey_ne_props hgp
    cases hl : lookupKey es part with
    | some childv =>
      exfalso
      apply hnot
      exact chains_key_mem es part hknp (by unfold hasKey; rw [hl]; rfl)
    | none =>
      have hhk : hasKey es part = false := by unfold hasKey; rw [hl]; rfl
      have heq : removeAddGo olddata q lastPart (.pdict es) [part] =
          .ok (.pdict (pushKey es part (.pdict (.cons "//" P .nil)))) := by
        rw [removeAddGo_cons_none olddata q lastPart P es part [] hprops hl]
        simp [hb, removeAddGo, Except.bind]
      have hwrec : wfNode (.pdict (.cons "//" P .nil)) = true :=
        wfNode_intro hwP rfl
      refine ⟨_, heq, ?_, ?_, ?_, ?_⟩
      · intro hwe
        exact wfEntries_pushKey es part _ hwe hgp hwrec hhk
      · intro hn
        obtain ⟨pr, tail, hes, hp, ht⟩ := wfNode_shape hn
        have hes2 : es = .cons "//" pr tail := by injection hes with h1
        subst hes2
        show wfNode (.pdict (.cons "//" pr (pushKey tail part _))) = true
        refine wfNode_intro hp ?_
        refine wfEntries_pushKey tail part _ ht hgp hwrec ?_
        rw [lookup_skip_props hknp] at hl
        unfold hasKey
        rw [hl]
        rfl
      · rw [listing_pushKey es part _ hknp]
        have hchild : listingNode (.pdict (.cons "//" P .nil)) =
            [([] : List String)] := by
          simp [listingNode, listingEntries, hstP]
        rw [hchild]
        exact List.perm_append_singleton _ _
      · intro c
        rw [chains_pushKey es part _ hknp]
        have hchild : chainsNode (.pdict (.cons "//" P .nil)) =
            ([] : List (List String)) := by
          simp [chainsNode, chainsEntries]
        rw [hchild]
        simp only [List.map_nil, List.mem_append, List.mem_singleton,
          List.mem_cons, List.not_mem_nil, or_false]
        rw [← prefix_singleton_iff]
  | part :: r :: rs, es, hlast, hgood, hdrop, hwf, hnot => by
    rw [List.getLast?_cons_cons] at hlast
    have hgood2 : ∀ k ∈ r :: rs, goodKey k = true :=
      fun k m => hgood k (List.mem_cons_of_mem _ m)
    have hdrop2 : ∀ k ∈ (r :: rs).dropLast, k ≠ lastPart := by
      intro k m
      refine hdrop k ?_
      rw [List.dropLast_cons₂]
      exact List.mem_cons_of_mem _ m
    have hpne : part ≠ lastPart := by
      refine hdrop part ?_
      rw [List.dropLast_cons₂]
      exact List.mem_cons_self _ _
    have hbf : (part == lastPart) = false := beq_eq_false_iff_ne.mpr hpne
    have hgp : goodKey part = true := hgood part (List.mem_cons_self _ _)
    have hknp : part ≠ "//" := goodKey_ne_props hgp
    cases hl : lookupKey es part with
    | none =>
      have hhk : hasKey es part = false := by unfold hasKey; rw [hl]; rfl
      have hnot2 : (r :: rs) ∉
          chainsEntries (.cons "//" path_properties .nil) := by
        simp [chainsEntries]
      obtain ⟨esc, heqc, _, hnodec, hpermc, hchainsc⟩ :=
        removeAddGo_spec olddata q lastPart P hprops hwP hstP (r :: rs)
          (.cons "//" path_properties .nil) hlast hgood2 hdrop2
          (Or.inr (wfNode_intro (by decide) rfl)) hnot2
      have hwesc : wfNode (.pdict esc) = true :=
        hnodec (wfNode_intro (by decide) rfl)
      have heq : removeAddGo olddata q lastPart (.pdict es)
          (part :: r :: rs) = .ok (.pdict (pushKey es part (.pdict esc))) := by
        rw [removeAddGo_cons_none olddata q lastPart P es part (r :: rs)
          hprops hl]
        simp only [hbf, Bool.false_eq_true, if_false, heqc, Except.bind]
      refine ⟨_, heq, ?_, ?_, ?_, ?_⟩
      · intro hwe
        exact wfEntries_pushKey es part _ hwe hgp hwesc hhk
      · intro hn
        obtain ⟨pr, tail, hes, hp, ht⟩ := wfNode_shape hn
        have hes2 : es = .cons "//" pr tail := by injection hes with h1
        subst hes2
        show wfNode (.pdict (.cons "//" pr (pushKey tail part _))) = true
        refine wfNode_intro hp ?_
        refine wfEntries_pushKey tail part _ ht hgp hwesc ?_
        rw [lookup_skip_props hknp] at hl
        unfold hasKey
        rw [hl]
        rfl
      · rw [listing_pushKey es part _ hknp]
        have hbase : listingEntries (.cons "//" path_properties .nil) =
            ([] : List (List String)) := by decide
        rw [hbase] at hpermc
        have hmap : List.Perm ((listingNode (.pdict esc)).map (part :: ·))
            [part :: r :: rs] := by
          have := hpermc.map (part :: ·)
          simpa using this
        exact (List.Perm.append_left _ hmap).trans
          (List.perm_append_singleton _ _)
      · intro c
        rw [chains_pushKey es part _ hknp]
        have hbase : chainsEntries (.cons "//" path_properties .nil) =
            ([] : List (List String)) := by decide
        simp only [List.mem_append, List.mem_cons, List.mem_map]
        constructor
        · rintro (hc | hc | ⟨c', hc', rfl⟩)
          · exact Or.inl hc
          · subst hc
            exact Or.inr ⟨by simp, ⟨r :: rs, rfl⟩⟩
          · have := (hchainsc c').mp hc'
            rw [hbase] at this
            simp only [List.not_mem_nil, false_or] at this
            refine Or.inr ⟨by simp, ?_⟩
            exact List.cons_prefix_cons.mpr ⟨rfl, this.2⟩
        · rintro (hc | ⟨hne, hpre⟩)
          · exact Or.inl hc
          · cases c with
            | nil => exact absurd rfl hne
            | cons x c' =>
              obtain ⟨h1, h2⟩ := List.cons_prefix_cons.mp hpre
              subst h1
              cases c' with
              | nil => exact Or.inr (Or.inl rfl)
              | cons y c'' =>
                refine Or.inr (Or.inr ⟨y :: c'', ?_, rfl⟩)
                refine (hchainsc (y :: c'')).mpr ?_
                rw [hbase]
                exact Or.inr ⟨by simp, h2⟩
    | some childv =>
      have hwchild : wfNode childv = true := by
        rcases hwf with hwe | hn
        · exact wf_lookup_node es part childv hwe hl
        · obtain ⟨pr, tail, hes, hp, ht⟩ := wfNode_shape hn
          have hes2 : es = .cons "//" pr tail := by injection hes with h1
          subst hes2
          rw [lookup_skip_props hknp] at hl
          exact wf_lookup_node tail part childv ht hl
      obtain ⟨prc, tailc, hcv, hpc, htc⟩ := wfNode_shape hwchild
      subst hcv
      have hnot2 : (r :: rs) ∉ chainsEntries (.cons "//" prc tailc) := by
        intro hmem
        exact hnot (chains_mem_intro es part _ (r :: rs) hknp hl hmem)
      obtain ⟨esc, heqc, _, hnodec, hpermc, hchainsc⟩ :=
        removeAddGo_spec olddata q lastPart P hprops hwP hstP (r :: rs)
          (.cons "//" prc tailc) hlast hgood2 hdrop2
          (Or.inr (wfNode_intro hpc htc)) hnot2
      have hwesc : wfNode (.pdict esc) = true :=
        hnodec (wfNode_intro hpc htc)
      have heq : removeAddGo olddata q lastPart (.pdict es)
          (part :: r :: rs) = .ok (.pdict (setKey es part (.pdict esc))) := by
        rw [removeAddGo_cons_some olddata q lastPart P es part (r :: rs)
          _ hprops hl, heqc]
        rfl
      refine ⟨_, heq, ?_, ?_, ?_, ?_⟩
      · intro hwe
        exact wfEntries_setKey es part _ hwe hgp hwesc
      · intro hn
        obtain ⟨pr, tail, hes, hp, ht⟩ := wfNode_shape hn
        have hes2 : es = .cons "//" pr tail := by injection hes with h1
        subst hes2
        rw [setKey_skip_props hknp]
        exact wfNode_intro hp (wfEntries_setKey tail part _ ht hgp hwesc)
      · obtain ⟨A, B, hA, hB⟩ := listing_setKey_decomp es part
          (.pdict (.cons "//" prc tailc)) (.pdict esc) hl hknp
        rw [hA, hB]
        have hmap : List.Perm ((listingNode (.pdict esc)).map (part :: ·))
            ((part :: r :: rs) ::
              (listingNode (.pdict (.cons "//" prc tailc))).map (part :: ·)) :=
          hpermc.map (part :: ·)
        simp only [List.append_assoc]
        refine List.Perm.trans
          (List.Perm.append_left A (hmap.append_right B)) ?_
        simp only [List.cons_append]
        exact List.perm_middle
      · intro c
        obtain ⟨A, B, hA, hB⟩ := chains_setKey_decomp es part
          (.pdict (.cons "//" prc tailc)) (.pdict esc) hl hknp
        rw [hA, hB]
        constructor
        · intro hc
          rcases List.mem_append.mp hc with hc | hcB
          · rcases List.mem_append.mp hc with hcA | hcX
            · exact Or.inl (List.mem_append_left _ (List.mem_append_left _ hcA))
            · rcases List.mem_cons.mp hcX with rfl | hcm
              · exact Or.inl (List.mem_append_left _ (List.mem_append_right _
                  (List.mem_cons_self _ _)))
              · obtain ⟨c', hc', rfl⟩ := List.mem_map.mp hcm
                rcases (hchainsc c').mp hc' with hold | ⟨hne, hpre⟩
                · exact Or.inl (List.mem_append_left _ (List.mem_append_right _
                    (List.mem_cons_of_mem _ (List.mem_map_of_mem _ hold))))
                · exact Or.inr ⟨by simp,
                    List.cons_prefix_cons.mpr ⟨rfl, hpre⟩⟩
          · exact Or.inl (List.mem_append_right _ hcB)
        · intro hc
          rcases hc with hc | ⟨hne, hpre⟩
          · rcases List.mem_append.mp hc with hc | hcB
            · rcases List.mem_append.mp hc with hcA | hcX
              · exact List.mem_append_left _ (List.mem_append_left _ hcA)
              · rcases List.mem_cons.mp hcX with rfl | hcm
                · exact List.mem_append_left _ (List.mem_append_right _
                    (List.mem_cons_self _ _))
                · obtain ⟨c', hc', rfl⟩ := List.mem_map.mp hcm
                  exact List.mem_append_left _ (List.mem_append_right _
                    (List.mem_cons_of_mem _ (List.mem_map_of_mem _
                      ((hchainsc c').mpr (Or.inl hc')))))
            · exact List.mem_append_right _ hcB
          · cases c with
            | nil => exact absurd rfl hne
            | cons x c' =>
              obtain ⟨h1, h2⟩ := List.cons_prefix_cons.mp hpre
              subst h1
              cases c' with
              | nil =>
                exact List.mem_append_left _ (List.mem_append_right _
                  (List.mem_cons_self _ _))
              | cons y c'' =>
                refine List.mem_append_left _ (List.mem_append_right _
                  (List.mem_cons_of_mem _ (List.mem_map_of_mem _ ?_)))
                exact (hchainsc (y :: c'')).mpr (Or.inr ⟨by simp, h2⟩)

theorem listing_split (es : Ents) (hw : wfEntries es = true)
    (c : List String) (hc : c ∈ listingEntries es) :
    pySplit (emit "" c) = c := by
  obtain ⟨k, c', rfl, _, hgood⟩ := listing_shape es hw c hc
  rw [emit_root_eq_join k c' (hgood k (List.mem_cons_self _ _))]
  refine pySplit_joinSlash (k :: c') (by simp) ?_
  intro x hx
  exact goodKey_no_slash (hgood x hx)

theorem emit_listing_ne_empty (es : Ents) (hw : wfEntries es = true)
    (c : List String) (hc : c ∈ listingEntries es) : emit "" c ≠ "" := by
  obtain ⟨k, c', rfl, _, hgood⟩ := listing_shape es hw c hc
  have hgk : goodKey k = true := hgood k (List.mem_cons_self _ _)
  rw [emit_root_eq_join k c' hgk]
  cases c' with
  | nil => exact goodKey_ne_empty hgk
  | cons k2 t =>
    show k ++ "/" ++ joinSlash (k2 :: t) ≠ ""
    exact append_slash_ne_empty _ _

theorem map_emit_nodup (es : Ents) (hw : wfEntries es = true) :
    ((listingEntries es).map (emit "")).Nodup := by
  refine (listing_nodup_entries es hw).map_on ?_
  intro c1 hc1 c2 hc2 hcc
  obtain ⟨k1, cs1, rfl, _, hg1⟩ := listing_shape es hw c1 hc1
  obtain ⟨k2, cs2, rfl, _, hg2⟩ := listing_shape es hw c2 hc2
  exact emit_root_inj hg1 hg2 (by simp) (by simp) hcc

theorem rebuild_spec (oldEs : Ents) (hwOld : wfEntries oldEs = true) :
    ∀ (L : List String) (acc : Ents) (done : List (List String)),
    wfEntries acc = true →
    List.Perm (listingEntries acc) done →
    (∀ c, c ∈ chainsEntries acc ↔ ∃ d ∈ done, c ≠ [] ∧ c <+: d) →
    (∀ q ∈ L, pySplit q ∈ listingEntries oldEs) →
    (∀ q ∈ L, ∀ k ∈ (pySplit q).dropLast, k ≠ (pySplit q).getLastD "") →
    (∀ q ∈ L, ∀ d ∈ done, ¬ pySplit q <+: d) →
    List.Pairwise (fun a b => ¬ pySplit b <+: pySplit a) L →
    ∃ fin, L.foldlM (fun acc q => removeAddGo (.pdict oldEs) q
        ((pySplit q).getLastD "") acc (pySplit q)) (Py.pdict acc) =
      .ok (.pdict fin) ∧
      wfEntries fin = true ∧
      List.Perm (listingEntries fin) (done ++ L.map pySplit) ∧
      (∀ c, c ∈ chainsEntries fin ↔
        ∃ d, (d ∈ done ∨ d ∈ L.map pySplit) ∧ c ≠ [] ∧ c <+: d)
  | [], acc, done, hwa, hperm, hchains, _, _, _, _ => by
    refine ⟨acc, rfl, hwa, by simpa using hperm, ?_⟩
    intro c
    rw [hchains c]
    simp
  | q :: L', acc, done, hwa, hperm, hchains, hmem, hnr, hnotdone, hpw => by
    have hmq : pySplit q ∈ listingEntries oldEs := hmem q (List.mem_cons_self _ _)
    obtain ⟨k0, c0, hd, _, hgood⟩ := listing_shape oldEs hwOld _ hmq
    have hdne : pySplit q ≠ [] := by rw [hd]; simp
    have hlastq : (pySplit q).getLast? = some ((pySplit q).getLastD "") := by
      rw [List.getLastD_eq_getLast?]
      rw [hd]
      rw [List.getLast?_eq_getLast (k0 :: c0) (by simp)]
      rfl
    obtain ⟨P, hP, hwP, hstP⟩ :=
      get_properties_of_listing oldEs (pySplit q) hwOld hmq
    have hemitq : emit "" (pySplit q) = q := by
      rw [hd, emit_root_eq_join k0 c0
        (hgood k0 (by rw [hd]; exact List.mem_cons_self _ _)), ← hd]
      exact joinSlash_pySplit q
    rw [hemitq] at hP
    have hnotacc : pySplit q ∉ chainsEntries acc := by
      intro hin
      obtain ⟨d, hdin, _, hpre⟩ := (hchains _).mp hin
      exact hnotdone q (List.mem_cons_self _ _) d hdin hpre
    obtain ⟨acc', heq', hwimp, _, hperm', hchains'⟩ :=
      removeAddGo_spec (.pdict oldEs) q ((pySplit q).getLastD "") P hP hwP
        hstP (pySplit q) acc hlastq
        (fun k hk => hgood k (hd ▸ hk))
        (hnr q (List.mem_cons_self _ _)) (Or.inl hwa) hnotacc
    have hwa' : wfEntries acc' = true := hwimp hwa
    have hperm2 : List.Perm (listingEntries acc') (done ++ [pySplit q]) := by
      refine hperm'.trans ?_
      refine List.Perm.trans ?_ (List.perm_append_singleton _ _).symm
      exact hperm.cons _
    have hchains2 : ∀ c, c ∈ chainsEntries acc' ↔
        ∃ d ∈ done ++ [pySplit q], c ≠ [] ∧ c <+: d := by
      intro c
      rw [hchains' c]
      constructor
      · rintro (hc | ⟨hne, hpre⟩)
        · obtain ⟨d, hdin, h1, h2⟩ := (hchains c).mp hc
          exact ⟨d, List.mem_append_left _ hdin, h1, h2⟩
        · exact ⟨pySplit q, List.mem_append_right _ (by simp), hne, hpre⟩
      · rintro ⟨d, hdin, h1, h2⟩
        rcases List.mem_append.mp hdin with hdin | hdin
        · exact Or.inl ((hchains c).mpr ⟨d, hdin, h1, h2⟩)
        · simp only [List.mem_singleton] at hdin
          subst hdin
          exact Or.inr ⟨h1, h2⟩
    obtain ⟨fin, heqf, hwf, hpermf, hchainsf⟩ :=
      rebuild_spec oldEs hwOld L' acc' (done ++ [pySplit q]) hwa' hperm2
        hchains2
        (fun q2 m => hmem q2 (List.mem_cons_of_mem _ m))
        (fun q2 m => hnr q2 (List.mem_cons_of_mem _ m))
        (by
          intro q2 m d hdin
          rcases List.mem_append.mp hdin with hdin | hdin
          · exact hnotdone q2 (List.mem_cons_of_mem _ m) d hdin
          · simp only [List.mem_singleton] at hdin
            subst hdin
            exact (List.pairwise_cons.mp hpw).1 q2 m)
        (List.pairwise_cons.mp hpw).2
    refine ⟨fin, ?_, hwf, ?_, ?_⟩
    · rw [List.foldlM_cons, heq']
      show Except.bind (Except.ok (Py.pdict acc')) _ = _
      simpa using heqf
    · refine hpermf.trans ?_
      simp [List.append_assoc]
    · intro c
      rw [hchainsf c]
      constructor
      · rintro ⟨d, hdin, h1, h2⟩
        refine ⟨d, ?_, h1, h2⟩
        rcases hdin with hdin | hdin
        · rcases List.mem_append.mp hdin with hdin | hdin
          · exact Or.inl hdin
          · simp only [List.mem_singleton] at hdin
            subst hdin
            exact Or.inr (by simp)
        · exact Or.inr (by simp [hdin])
      · rintro ⟨d, hdin, h1, h2⟩
        refine ⟨d, ?_, h1, h2⟩
        rcases hdin with hdin | hdin
        · exact Or.inl (List.mem_append_left _ hdin)
        · rw [List.map_cons] at hdin
          rcases List.mem_cons.mp hdin with hdin | hdin
          · exact Or.inl (List.mem_append_right _ (by simp [hdin]))
          · exact Or.inr hdin

/-- C4, counterexample to the claim as stated: "x/y" is registered, but
when the filesystem oracle reports it as missing at removal time,
unregister("x/y") raises FileNotFoundError instead of clearing the
registration, and contains("x/y") remains true afterwards. -/
theorem remove_path_unregisters_cex :
    Except.bind (add_path (fun _ => true) (fun _ => true) "T" (.pdict .nil)
      "x/y") (fun t => remove_path (fun _ => false) t "x/y") =
      .error (.fileNotFoundError "Path \"x/y\" was not found.") ∧
    Except.bind (add_path (fun _ => true) (fun _ => true) "T" (.pdict .nil)
      "x/y") (fun t => in_the_data t "x/y") = .ok true :=
  ⟨rfl, rfl⟩

/-- C4, amended: let the store hold a well-formed tree whose listed paths
are l, let p be listed (registered), reported as existing by the oracle,
and suppose no listed path repeats its final segment earlier in its
chain (the remove-rebuild marks any segment equal by string to the last
one as registered, so such paths are excluded).  Then unregister(p)
(remove_path) succeeds, contains(p) becomes false, listAll afterwards
returns exactly the other registered paths (l with the one occurrence of
p removed, up to order), and every node chain remaining in the tree is a
prefix of a surviving registered path — shared ancestors are kept and no
orphan structural chain survives. -/
theorem remove_path_unregisters (ex : String → Bool) (data : Py) (p : String)
    (l : List String) (hwf : wfData data = true) (hl : get_all data = .ok l)
    (hp : p ∈ l) (hex : ex p = true)
    (hnr : ∀ q ∈ l, ∀ k ∈ (pySplit q).dropLast, k ≠ (pySplit q).getLastD "") :
    ∃ t', remove_path ex data p = .ok t' ∧
      in_the_data t' p = .ok false ∧
      (∃ l', get_all t' = .ok l' ∧ List.Perm l' (l.erase p)) ∧
      (∀ c ∈ chainsNode t', ∃ q ∈ l.erase p, c <+: pySplit q) := by
  cases data with
  | pdict oldEs =>
    have hwOld : wfEntries oldEs = true := hwf
    have hgl : get_all (.pdict oldEs) =
        .ok ((listingEntries oldEs).map (emit "")) :=
      getAll_listing_entries oldEs hwOld ""
    have hleq : l = (listingEntries oldEs).map (emit "") := by
      rw [hgl] at hl
      injection hl with h1
      exact h1.symm
    have hElem : ∀ q ∈ l, ∃ c ∈ listingEntries oldEs, emit "" c = q := by
      intro q hq
      rw [hleq] at hq
      obtain ⟨c, hc, rfl⟩ := List.mem_map.mp hq
      exact ⟨c, hc, rfl⟩
    have hSplitMem : ∀ q ∈ l, pySplit q ∈ listingEntries oldEs := by
      intro q hq
      obtain ⟨c, hc, rfl⟩ := hElem q hq
      rw [listing_split oldEs hwOld c hc]
      exact hc
    have hEmitSplit : ∀ q ∈ l, emit "" (pySplit q) = q := by
      intro q hq
      obtain ⟨c, hc, rfl⟩ := hElem q hq
      rw [listing_split oldEs hwOld c hc]
    have hpne : p ≠ "" := by
      obtain ⟨c, hc, he⟩ := hElem p hp
      rw [← he]
      exact emit_listing_ne_empty oldEs hwOld c hc
    have hpw : List.Pairwise (fun a b => ¬ pySplit b <+: pySplit a)
        (l.erase p) := by
      refine List.Pairwise.sublist (List.erase_sublist p l) ?_
      rw [hleq]
      rw [List.pairwise_map]
      refine (listing_pairwise_entries oldEs hwOld).imp_of_mem ?_
      intro a b ha hb hnp
      rw [listing_split oldEs hwOld a ha, listing_split oldEs hwOld b hb]
      exact hnp
    obtain ⟨fin, heqf, hwfin, hpermf, hchainsf⟩ :=
      rebuild_spec oldEs hwOld (l.erase p) .nil [] rfl (by simp [listingEntries])
        (by intro c; simp [chainsEntries])
        (fun q m => hSplitMem q (List.mem_of_mem_erase m))
        (fun q m => hnr q (List.mem_of_mem_erase m))
        (by intro q m d hd; simp at hd) hpw
    have hpermf2 : List.Perm (listingEntries fin)
        ((l.erase p).map pySplit) := by
      refine hpermf.trans ?_
      simp
    have hremove : remove_path ex (.pdict oldEs) p = .ok (.pdict fin) := by
      unfold remove_path
      rw [if_neg hpne]
      simp only [hex, Bool.not_true, Bool.false_eq_true, if_false]
      rw [hl]
      show Except.bind (listRemove l p) _ = _
      rw [listRemove, if_pos hp]
      show Except.bind ((l.erase p).foldlM _ (Py.pdict .nil)) _ = _
      rw [heqf]
      rfl
    have hmapback : ((l.erase p).map pySplit).map (emit "") = l.erase p := by
      rw [List.map_map]
      have : ∀ q ∈ l.erase p, (emit "" ∘ pySplit) q = id q := by
        intro q hq
        exact hEmitSplit q (List.mem_of_mem_erase hq)
      rw [List.map_congr_left this, List.map_id]
    have hglfin : get_all (.pdict fin) =
        .ok ((listingEntries fin).map (emit "")) :=
      getAll_listing_entries fin hwfin ""
    have hperml' : List.Perm ((listingEntries fin).map (emit "")) (l.erase p) := by
      have := hpermf2.map (emit "")
      rw [hmapback] at this
      exact this
    have hnodupl : l.Nodup := by
      rw [hleq]
      exact map_emit_nodup oldEs hwOld
    have hpnot : p ∉ (listingEntries fin).map (emit "") := by
      intro hmem
      have : p ∈ l.erase p := hperml'.mem_iff.mp hmem
      have := (List.Nodup.mem_erase_iff hnodupl).mp this
      exact this.1 rfl
    refine ⟨.pdict fin, hremove, ?_, ⟨_, hglfin, hperml'⟩, ?_⟩
    · unfold in_the_data
      rw [hglfin]
      show Except.ok (List.elem p ((listingEntries fin).map (emit ""))) =
        .ok false
      cases helem : List.elem p ((listingEntries fin).map (emit "")) with
      | false => rfl
      | true =>
        exfalso
        exact hpnot (List.mem_of_elem_eq_true helem)
    · intro c hc
      obtain ⟨d, hdin, hne, hpre⟩ := (hchainsf c).mp hc
      rcases hdin with hdin | hdin
      · simp at hdin
      · obtain ⟨q, hq, rfl⟩ := List.mem_map.mp hdin
        exact ⟨q, hq, hpre⟩
  | pnone => simp [wfData] at hwf
  | pbool _ => simp [wfData] at hwf
  | pstr _ => simp [wfData] at hwf

/-- C4, witness: the spec's own scenario.  Registering "x/y" then "x/z"
builds exampleTreeXZ; unregistering "x/y" satisfies every hypothesis of
the amended theorem, and concretely listAll afterwards returns exactly
["x/z"] with node x still present. -/
theorem remove_path_unregisters_witness :
    (Except.bind (add_path (fun _ => true) (fun _ => false) "T1"
        (.pdict .nil) "x/y")
      (fun a => add_path (fun _ => true) (fun _ => false) "T2" a "x/z") =
        .ok exampleTreeXZ) ∧
    wfData exampleTreeXZ = true ∧
    get_all exampleTreeXZ = .ok ["x/y", "x/z"] ∧
    ("x/y" : String) ∈ ["x/y", "x/z"] ∧
    (fun _ : String => true) "x/y" = true ∧
    (∀ q ∈ ["x/y", "x/z"], ∀ k ∈ (pySplit q).dropLast,
      k ≠ (pySplit q).getLastD "") ∧
    (∃ t', remove_path (fun _ => true) exampleTreeXZ "x/y" = .ok t' ∧
      in_the_data t' "x/y" = .ok false ∧
      (∃ l', get_all t' = .ok l' ∧
        List.Perm l' (["x/y", "x/z"].erase "x/y")) ∧
      (∀ c ∈ chainsNode t', ∃ q ∈ ["x/y", "x/z"].erase "x/y",
        c <+: pySplit q)) ∧
    Except.bind (remove_path (fun _ => true) exampleTreeXZ "x/y")
      (fun t => get_all t) = .ok ["x/z"] :=
  ⟨rfl, by decide, rfl, by decide, rfl, by decide,
    remove_path_unregisters (fun _ => true) exampleTreeXZ "x/y"
      ["x/y", "x/z"] (by decide) rfl (by decide) rfl (by decide),
    rfl⟩
